import Mathlib

/-!
Verification development for the pgen parser generator.

Shallow embedding of the pgen translation pipeline (Go) into Lean 4:
Go strings are modelled as `List Char` (or `List Nat` of rune/byte codes
where the Go code works on bytes/runes), Go slices as `List`, Go maps as
insertion-ordered association lists (assignment replaces the value of the
first matching key, otherwise appends), and mutation as explicit state
passing.  Each definition mirrors one Go function of the repository and is
named after it where possible.
-/

namespace Pgen

/-! ## Generic helpers (association lists, substring test) -/

/-- Lookup inaps an association list: first entry wins (Go map lookup). -/
def alookup {β : Type} : List (Nat × β) → Nat → Option β
  | [], _ => none
  | (k, v) :: rest, key => if k = key then some v else alookup rest key

/-- Go map assignment `m[k] = v`: replace the value of the first entry with
key `k`, or append a new entry if the key is absent. -/
def aset {β : Type} : List (Nat × β) → Nat → β → List (Nat × β)
  | [], key, v => [(key, v)]
  | (k, w) :: rest, key, v =>
    if k = key then (key, v) :: rest else (k, w) :: aset rest key v

/-- String-keyed association lookup (Go `map[string]T` read). -/
def slookup {β : Type} : List (String × β) → String → Option β
  | [], _ => none
  | (k, v) :: rest, key => if k = key then some v else slookup rest key

/-- Prefix test on lists (used for Go `strings.HasPrefix` / substring search). -/
def isPre {α : Type} [DecidableEq α] : List α → List α → Bool
  | [], _ => true
  | _ :: _, [] => false
  | a :: as_, b :: bs => a = b && isPre as_ bs

/-- Substring occurrence test on char lists (Go `strings.Contains`). -/
def containsSubL : List Char → List Char → Bool
  | needle, [] => needle.isEmpty
  | needle, c :: rest => isPre needle (c :: rest) || containsSubL needle rest

/-- Substring occurrence test on strings. -/
def strContainsSub (hay needle : String) : Bool :=
  containsSubL needle.toList hay.toList

/-! ## Position (src/unnamed/part_008, `models.Position`)

A position is the Go triple `(Offset, LineIdx, CharIdx)` of `int`s.  Text is
a list of characters; `len` in Go is byte length, which agrees with list
length on the character lists we quantify over (the homomorphism property
is insensitive to the byte/rune distinction because both sides measure the
same list). -/

structure Position where
  Offset : Int
  LineIdx : Int
  CharIdx : Int
  deriving Repr, DecidableEq

/-- Number of newline characters in a text (Go `strings.Count(text, "\n")`). -/
def countNL (t : List Char) : Nat := t.countP (fun c => c = '\n')

/-- Index of the last newline, `-1` when there is none
(Go `strings.LastIndex(text, "\n")`). -/
def lastIndexNL : List Char → Int
  | [] => -1
  | c :: rest =>
    if 0 ≤ lastIndexNL rest then lastIndexNL rest + 1
    else if c = '\n' then 0 else -1

/-- Embedding of `Position.MoveForward` (src/unnamed/part_008 lines 15-28):
`lineCount` is the newline count of the text; with no newline the char
index advances by the text length, otherwise it restarts after the last
newline. -/
def Position.MoveForward (p : Position) (text : List Char) : Position :=
  { Offset := p.Offset + text.length
    LineIdx := p.LineIdx + countNL text
    CharIdx :=
      if countNL text = 0 then p.CharIdx + text.length
      else (text.length : Int) - lastIndexNL text - 1 }

/-! ## Escape / unescape (src/util/escape.go, src/unnamed/part_001)

Characters are modelled by their code points (`Nat`).  The Go
`SingleQuoteStringUnescape` iterates over the bytes of its input and the
escape functions iterate over runes; on the ASCII inputs the round-trip
claim quantifies over, bytes and runes coincide, and both are modelled as
code-point lists here. -/

/-- Embedding of `printableAscii` (escape.go lines 8-17); 39 is the single
quote, 34 the double quote. -/
def printableAscii (b : Nat) : Bool :=
  b ∈ [33, 37, 38, 40, 41, 42, 43, 44, 46, 47, 58, 59, 60, 61, 62, 63, 64,
       91, 93, 94, 123, 124, 125, 126, 35, 36, 45, 96, 39, 34] ||
  (48 ≤ b && b ≤ 57) || (97 ≤ b && b ≤ 102) || (65 ≤ b && b ≤ 70)

/-- One hex digit as produced by `rune2hex4`: `0`-`9` then uppercase `A`-`F`. -/
def hexDigitCode (v : Nat) : Nat := if v < 10 then 48 + v else 65 + v - 10

/-- Embedding of `rune2hex4` (escape.go lines 19-31): the four hex digits of
the low 16 bits, most significant first. -/
def rune2hex4 (r : Nat) : List Nat :=
  [hexDigitCode (r / 4096 % 16), hexDigitCode (r / 256 % 16),
   hexDigitCode (r / 16 % 16), hexDigitCode (r % 16)]

/-- Embedding of `escape` (escape.go lines 33-52); 92 is the backslash. -/
def escapeRune (r : Nat) : List Nat :=
  if printableAscii r then [r]
  else if r = 9 then [92, 116]
  else if r = 10 then [92, 110]
  else if r = 13 then [92, 114]
  else if r = 12 then [92, 102]
  else if r = 92 then [92, 92]
  else 92 :: 117 :: rune2hex4 r

/-- Embedding of `SingleQuoteStringEscape` (escape.go lines 54-64). -/
def SingleQuoteStringEscape (s : List Nat) : List Nat :=
  (s.map (fun r => if r = 39 then [92, 39] else escapeRune r)).flatten

/-- Embedding of `DoubleQuoteStringEscape` (escape.go lines 66-76). -/
def DoubleQuoteStringEscape (s : List Nat) : List Nat :=
  (s.map (fun r => if r = 34 then [92, 34] else escapeRune r)).flatten

/-- Embedding of `isHex` (part_001 lines 17-19). -/
def isHex (b : Nat) : Bool :=
  (48 ≤ b && b ≤ 57) || (65 ≤ b && b ≤ 70) || (97 ≤ b && b ≤ 102)

/-- Value of one hex digit as read by `hex4toRune` (part_001 lines 3-15);
any byte that is neither a digit nor `A`-`F` takes the lowercase branch. -/
def hexVal (b : Nat) : Nat :=
  if 48 ≤ b && b ≤ 57 then b - 48
  else if 65 ≤ b && b ≤ 70 then b - 65 + 10
  else b - 97 + 10

/-- Embedding of `hex4toRune` on four digit bytes. -/
def hex4toRune (a b c d : Nat) : Nat :=
  ((hexVal a * 16 + hexVal b) * 16 + hexVal c) * 16 + hexVal d

/-- Embedding of `SingleQuoteStringUnescape` (part_001 lines 46-63) together
with the `unescape` helper (lines 25-44) it calls: a backslash followed by
nothing is copied verbatim; `\'` yields a quote; `\uXXXX` with four hex
digits yields the decoded rune; `\t \n \r \f` yield the control characters;
any other escaped byte yields that byte. -/
def SingleQuoteStringUnescape : List Nat → List Nat
  | [] => []
  | b :: rest =>
    if b = 92 then
      match rest with
      | [] => [b]
      | c :: rest2 =>
        if c = 39 then 39 :: SingleQuoteStringUnescape rest2
        else
          match hu : rest2 with
          | h1 :: h2 :: h3 :: h4 :: rest3 =>
            if c = 117 && isHex h1 && isHex h2 && isHex h3 && isHex h4 then
              hex4toRune h1 h2 h3 h4 :: SingleQuoteStringUnescape rest3
            else if c = 116 then 9 :: SingleQuoteStringUnescape rest2
            else if c = 110 then 10 :: SingleQuoteStringUnescape rest2
            else if c = 114 then 13 :: SingleQuoteStringUnescape rest2
            else if c = 102 then 12 :: SingleQuoteStringUnescape rest2
            else c :: SingleQuoteStringUnescape rest2
          | _ =>
            if c = 116 then 9 :: SingleQuoteStringUnescape rest2
            else if c = 110 then 10 :: SingleQuoteStringUnescape rest2
            else if c = 114 then 13 :: SingleQuoteStringUnescape rest2
            else if c = 102 then 12 :: SingleQuoteStringUnescape rest2
            else c :: SingleQuoteStringUnescape rest2
    else b :: SingleQuoteStringUnescape rest
termination_by s => s.length
decreasing_by all_goals (simp_all only [List.length_cons]; omega)

/-- The representable characters of the round-trip law: code points that
`escape` maps to themselves and that `SingleQuoteStringEscape` does not
quote, i.e. the printable ASCII set minus the single quote. -/
def representable (b : Nat) : Bool := printableAscii b && b ≠ 39

/-! ## Stage 1 section split (src/stages/stage1.go)

`strings.Split` on a non-empty separator, followed by the six-section
check of `Stage1.run`.  The splitter is written with explicit fuel so that
it is structurally recursive (the fuel `s.length + 1` always suffices
because each round consumes at least one character). -/

/-- First index at which `sep` occurs in `s` (Go `strings.Index`). -/
def findSep (sep : List Char) : List Char → Option Nat
  | [] => if sep.isEmpty then some 0 else none
  | c :: rest =>
    if isPre sep (c :: rest) then some 0
    else (findSep sep rest).map (· + 1)

/-- Fuelled splitting loop of Go `strings.Split` for a non-empty separator. -/
def stringsSplitGo (sep : List Char) : Nat → List Char → List (List Char)
  | 0, s => [s]
  | fuel + 1, s =>
    match findSep sep s with
    | none => [s]
    | some i => s.take i :: stringsSplitGo sep fuel (s.drop (i + sep.length))

/-- Go `strings.Split(s, sep)` for non-empty `sep` (the only way pgen calls
it: the separator is the 121-character divider). -/
def stringsSplit (s sep : List Char) : List (List Char) :=
  stringsSplitGo sep (s.length + 1) s

/-- The section divider: a line of exactly 120 `-` characters followed by a
newline (stage1.go line 50). -/
def sectionDivider : List Char := List.replicate 120 '-' ++ ['\n']

/-- Result of `Stage1.run`: either the six sections or the structural error
`expected 6 parts, got n` (stage1.go line 38). -/
inductive Stage1Out where
  | ok (tokens keywords operators nodes grammars hack : List Char) : Stage1Out
  | err (expected got : Nat) : Stage1Out
  deriving Repr, DecidableEq

/-- Embedding of `Stage1.run` together with `Stage1.getSections`
(stage1.go lines 34-60): split the input on the divider; with exactly six
parts produce the six sections in order, otherwise record the structural
error and produce nothing. -/
def stage1Run (input : List Char) : Stage1Out :=
  let sections := stringsSplit input sectionDivider
  if h : sections.length = 6 then
    Stage1Out.ok (sections.get ⟨0, by omega⟩) (sections.get ⟨1, by omega⟩)
      (sections.get ⟨2, by omega⟩) (sections.get ⟨3, by omega⟩)
      (sections.get ⟨4, by omega⟩) (sections.get ⟨5, by omega⟩)
  else Stage1Out.err 6 sections.length

/-! ## Language and memo ids (src/models/language.go)

Grammar rules are identified by their pointer identity in Go; the model
gives each rule a numeric identity `id`.  `memoIdMap` is a Go map from rule
pointer to int, modelled as an insertion-ordered association list. -/

/-- A grammar rule as seen by `Language.AddGrammarRule`: its identity and
its `(memo)` flag. -/
structure GrammarRuleRef where
  id : Nat
  ruleMemo : Bool
  deriving Repr, DecidableEq

/-- The parts of `models.Language` that `AddGrammarRule` touches. -/
structure Language where
  grammarRules : List GrammarRuleRef
  memoIdMap : List (Nat × Nat)
  deriving Repr, DecidableEq

/-- Embedding of `models.NewLanguage` (language.go lines 34-40): empty rule
list, empty memo map. -/
def NewLanguage : Language := { grammarRules := [], memoIdMap := [] }

/-- Embedding of `Language.AddGrammarRule` (language.go lines 93-98): append
the rule; if it is memoized, assign `memoIdMap[rule] = len(memoIdMap)`
(the length is read before the assignment, and assignment to an existing
key replaces its value). -/
def Language.AddGrammarRule (lang : Language) (r : GrammarRuleRef) : Language :=
  { grammarRules := lang.grammarRules ++ [r]
    memoIdMap :=
      if r.ruleMemo then aset lang.memoIdMap r.id lang.memoIdMap.length
      else lang.memoIdMap }

/-- A sequence of `AddGrammarRule` calls starting from a fresh language. -/
def buildLanguage (rs : List GrammarRuleRef) : Language :=
  rs.foldl Language.AddGrammarRule NewLanguage

/-- Number of memoized rules in a rule list. -/
def countMemo (rs : List GrammarRuleRef) : Nat :=
  (rs.filter (fun r => r.ruleMemo)).length

/-- The memo map the dense-id invariant predicts when ids are assigned
starting at `k`: one entry per memoized rule, ids consecutive in insertion
order. -/
def expectedMemoFrom (k : Nat) : List GrammarRuleRef → List (Nat × Nat)
  | [] => []
  | r :: rs =>
    if r.ruleMemo then (r.id, k) :: expectedMemoFrom (k + 1) rs
    else expectedMemoFrom k rs

/-! ## Grammar rule trees (src/models: `GrammarRuleNode`)

A `GrammarRuleNode` carries `kind`, `name`, a snippet (modelled by its
text), a suffix, the `(memo)` flag, an ordered child list, an optional
separator and an optional action (both modelled as a forest that is empty
or a singleton, matching the nil-able Go pointers).  The forest type is a
mutually defined list so that all functions below are structurally
recursive and computable by the kernel. -/

mutual
inductive GNode where
  | mk (kind : String) (name : String) (snippet : String) (suffix : String)
       (ruleMemo : Bool) (children : GForest) (separator : GForest)
       (action : GForest) : GNode
inductive GForest where
  | nil : GForest
  | cons (hd : GNode) (tl : GForest) : GForest
end

def GNode.kind : GNode → String
  | .mk k _ _ _ _ _ _ _ => k

def GNode.name : GNode → String
  | .mk _ n _ _ _ _ _ _ => n

def GNode.snippet : GNode → String
  | .mk _ _ s _ _ _ _ _ => s

def GNode.suffix : GNode → String
  | .mk _ _ _ s _ _ _ _ => s

def GNode.ruleMemo : GNode → Bool
  | .mk _ _ _ _ m _ _ _ => m

def GNode.children : GNode → GForest
  | .mk _ _ _ _ _ c _ _ => c

def GNode.separator : GNode → GForest
  | .mk _ _ _ _ _ _ s _ => s

def GNode.action : GNode → GForest
  | .mk _ _ _ _ _ _ _ a => a

def GForest.toList : GForest → List GNode
  | .nil => []
  | .cons h t => h :: GForest.toList t

def GForest.length : GForest → Nat
  | .nil => 0
  | .cons _ t => GForest.length t + 1

def GForest.isNil : GForest → Bool
  | .nil => true
  | .cons _ _ => false

/-- All-quantifier over a forest for a node predicate. -/
def forestAll (p : GNode → Bool) : GForest → Bool
  | .nil => true
  | .cons h t => p h && forestAll p t

/-- Go `node.Child()`: the first child or nothing. -/
def GNode.child : GNode → Option GNode
  | .mk _ _ _ _ _ (.cons c _) _ _ => some c
  | _ => none

mutual
/-- All nodes of a subtree in the order `GrammarRuleNode.Visit` reaches
them: the node itself, then its children, then its separator (the action
is not visited, mirroring the Go `Visit`). -/
def allNodes : GNode → List GNode
  | n@(.mk _ _ _ _ _ children sep _) =>
    n :: (allNodesF children ++ allNodesF sep)
def allNodesF : GForest → List GNode
  | .nil => []
  | .cons h t => allNodes h ++ allNodesF t
end

/-! ## Stage 2 grammar-group rewrite (src/stages stage2, `convertGrammarRules`)

The Go pass works in two phases over mutable trees: a `Visit` traversal
that flattens single-actionless-choice groups in place and collects the
remaining group nodes in pre-order, then a loop over the collected nodes
that (deduplicating on snippet text) turns each into a `NameAtom` named
`_group_N` and appends a synthetic rule holding its choices.  Because the
per-node decisions are local and the dedup/naming state is consulted in
exactly the collection (pre-order) order, the whole pass is equivalent to
a single pre-order stateful traversal, which is what the pure model does:
the state carries the `newRules` dedup map (snippet key to synthetic name,
in insertion order) and the synthetic rules in `AddGrammarRule` order; a
hoisted group reserves its slot before its choices are rewritten so that
synthetic rules keep the order Go appends them in. -/

mutual
/-- Size measure used for termination of the tree transformations. -/
def gsizeN : GNode → Nat
  | .mk _ _ _ _ _ c s a => gsizeF c + gsizeF s + gsizeF a + 1
def gsizeF : GForest → Nat
  | .nil => 0
  | .cons h t => gsizeN h + gsizeF t + 1
end

structure ConvSt where
  newRuleKeys : List (String × String)
  newRules : List GNode

mutual
/-- One node of the `convertGrammarRules` rewrite (stage2 source,
lines 161-196).  A `GroupAtom` with exactly one choice that has no action
is flattened: the choice layer is removed and the items become the group
node's own children (the group stays in its parent's child list).  Any
other `GroupAtom` becomes a `NameAtom` referring to the synthetic rule for
its snippet text, creating that rule (named `_group_N`, `N` counting the
distinct snippet keys from 1) on first encounter; its former choices are
still rewritten (they are the body of the synthetic rule; on a dedup hit
they are rewritten and dropped, as in Go where the collected inner groups
are processed even though the duplicate's subtree is detached).  All other
nodes recurse into children and then separator, the `Visit` order. -/
def convertNode (st : ConvSt) (n : GNode) : ConvSt × GNode :=
  if n.kind = "group-atom" then
    match h : n.children with
    | .cons (.mk _ _ _ _ _ cItems _ .nil) .nil =>
      let (st1, items') := convertForest st cItems
      let (st2, sep') := convertForest st1 n.separator
      (st2, .mk n.kind n.name n.snippet n.suffix n.ruleMemo items' sep' n.action)
    | _ =>
      match slookup st.newRuleKeys n.snippet with
      | some nm =>
        let (st1, _) := convertForest st n.children
        let (st2, sep') := convertForest st1 n.separator
        (st2, .mk "name-atom" nm n.snippet n.suffix n.ruleMemo .nil sep' n.action)
      | none =>
        let nm := "_group_" ++ toString (st.newRuleKeys.length + 1)
        let idx := st.newRules.length
        let placeholder := GNode.mk "rule" nm n.snippet "" false .nil .nil .nil
        let st1 : ConvSt :=
          ⟨st.newRuleKeys ++ [(n.snippet, nm)], st.newRules ++ [placeholder]⟩
        let (st2, choices') := convertForest st1 n.children
        let (st3, sep') := convertForest st2 n.separator
        let newRule := GNode.mk "rule" nm n.snippet "" false choices' .nil .nil
        (⟨st3.newRuleKeys, st3.newRules.set idx newRule⟩,
         .mk "name-atom" nm n.snippet n.suffix n.ruleMemo .nil sep' n.action)
  else
    let (st1, children') := convertForest st n.children
    let (st2, sep') := convertForest st1 n.separator
    (st2, .mk n.kind n.name n.snippet n.suffix n.ruleMemo children' sep' n.action)
termination_by gsizeN n
decreasing_by
  all_goals cases n
  all_goals simp_all [gsizeN, gsizeF, GNode.children, GNode.separator]
  all_goals omega
def convertForest : ConvSt → GForest → ConvSt × GForest
  | st, .nil => (st, .nil)
  | st, .cons h t =>
    let (st1, h') := convertNode st h
    let (st2, t') := convertForest st1 t
    (st2, .cons h' t')
termination_by _ f => gsizeF f
decreasing_by all_goals (simp_all [gsizeN, gsizeF] <;> omega)
end

/-- The two hoisting arms of `convertNode` for a non-flattenable
`GroupAtom` (more than one choice, or an action on the sole choice, or no
choice at all), factored over the group's child and separator forests: on
a dedup hit emit a `NameAtom` to the existing synthetic rule; otherwise
reserve a `_group_N` rule slot, convert the choices into it, and emit a
`NameAtom` to it. -/
def hoistRes (st : ConvSt) (nch nsep : GForest) (name snip sfx : String)
    (memo : Bool) (act : GForest) : ConvSt × GNode :=
  match slookup st.newRuleKeys snip with
  | some nm =>
    let (st1, _) := convertForest st nch
    let (st2, sep') := convertForest st1 nsep
    (st2, .mk "name-atom" nm snip sfx memo .nil sep' act)
  | none =>
    let nm := "_group_" ++ toString (st.newRuleKeys.length + 1)
    let idx := st.newRules.length
    let placeholder := GNode.mk "rule" nm snip "" false .nil .nil .nil
    let st1 : ConvSt :=
      ⟨st.newRuleKeys ++ [(snip, nm)], st.newRules ++ [placeholder]⟩
    let (st2, choices') := convertForest st1 nch
    let (st3, sep') := convertForest st2 nsep
    let newRule := GNode.mk "rule" nm snip "" false choices' .nil .nil
    (⟨st3.newRuleKeys, st3.newRules.set idx newRule⟩,
     .mk "name-atom" nm snip sfx memo .nil sep' act)

/-- Rewrite each rule in order, threading the synthetic-rule state. -/
def convertRuleList : ConvSt → List GNode → ConvSt × List GNode
  | st, [] => (st, [])
  | st, r :: rs =>
    let (st1, r') := convertNode st r
    let (st2, rs') := convertRuleList st1 rs
    (st2, r' :: rs')

/-- Embedding of `Stage2.convertGrammarRules`: rewrite every grammar rule,
then append the synthetic `_group_N` rules in creation order (Go appends
them through `Language.AddGrammarRule`). -/
def convertGrammarRules (rules : List GNode) : List GNode :=
  let (st, rules') := convertRuleList ⟨[], []⟩ rules
  rules' ++ st.newRules

mutual
/-- Well-formedness of parsed grammar trees, as produced by the DSL parser
(spec section 3 invariants): the children of a `GroupAtom` are `Choice`
nodes, the children of a `Choice` are item nodes (never `Choice`), and
only `Choice` nodes carry an action. -/
def wfN : GNode → Bool
  | .mk k _ _ _ _ children sep act =>
    (if k = "group-atom" then forestAll (fun c => c.kind = "choice") children
     else if k = "choice" then forestAll (fun c => c.kind ≠ "choice") children
     else true)
    && (k = "choice" || act.isNil)
    && wfF children && wfF sep
def wfF : GForest → Bool
  | .nil => true
  | .cons h t => wfN h && wfF t
end

/-- A node acceptable as the direct child of a post-rewrite `GroupAtom`:
not a `Choice` and carrying no action. -/
def itemOk (c : GNode) : Bool := c.kind ≠ "choice" && c.action.isNil

mutual
/-- The post-rewrite invariant: no `GroupAtom` anywhere has a `Choice`
child or an action-bearing child (every surviving group is a flattened one
whose children are the items of its former sole actionless choice). -/
def goodN : GNode → Bool
  | .mk k _ _ _ _ children sep _ =>
    (k ≠ "group-atom" || forestAll itemOk children)
    && goodF children && goodF sep
def goodF : GForest → Bool
  | .nil => true
  | .cons h t => goodN h && goodF t
end

mutual
/-- Does a subtree contain a `GroupAtom` node with more than one child?
(The spec claims none remains after the rewrite.) -/
def hasBigGroupN : GNode → Bool
  | .mk k _ _ _ _ children sep _ =>
    (k = "group-atom" && decide (2 ≤ children.length))
    || hasBigGroupF children || hasBigGroupF sep
def hasBigGroupF : GForest → Bool
  | .nil => false
  | .cons h t => hasBigGroupN h || hasBigGroupF t
end

mutual
/-- Does a subtree contain any `GroupAtom` node at all? -/
def hasGroupN : GNode → Bool
  | .mk k _ _ _ _ children sep _ =>
    k = "group-atom" || hasGroupF children || hasGroupF sep
def hasGroupF : GForest → Bool
  | .nil => false
  | .cons h t => hasGroupN h || hasGroupF t
end

/-- Concrete counterexample input for the flattening claim: the grammar
rule `r: | ('a' 'b')` — a rule with one choice whose single item is a
group with one actionless choice of two items. -/
def cexGroupTree : GNode :=
  let itemA := GNode.mk "atom-item" "" "'a'" "" false
    (.cons (GNode.mk "string-atom" "" "'a'" "" false .nil .nil .nil) .nil) .nil .nil
  let itemB := GNode.mk "atom-item" "" "'b'" "" false
    (.cons (GNode.mk "string-atom" "" "'b'" "" false .nil .nil .nil) .nil) .nil .nil
  let innerChoice := GNode.mk "choice" "" "'a' 'b'" "" false
    (.cons itemA (.cons itemB .nil)) .nil .nil
  let group := GNode.mk "group-atom" "" "('a' 'b')" "" false
    (.cons innerChoice .nil) .nil .nil
  let item := GNode.mk "atom-item" "" "('a' 'b')" "" false (.cons group .nil) .nil .nil
  let choice := GNode.mk "choice" "" "('a' 'b')" "" false (.cons item .nil) .nil .nil
  GNode.mk "rule" "r" "r: | ('a' 'b')" "" false (.cons choice .nil) .nil .nil

/-- What the rewrite actually produces for `cexGroupTree`: the `GroupAtom`
node survives, its choice layer removed, the two items now its own
children — it is not spliced into the parent's (the `AtomItem`'s) child
list. -/
def cexGroupFlattened : GNode :=
  let itemA := GNode.mk "atom-item" "" "'a'" "" false
    (.cons (GNode.mk "string-atom" "" "'a'" "" false .nil .nil .nil) .nil) .nil .nil
  let itemB := GNode.mk "atom-item" "" "'b'" "" false
    (.cons (GNode.mk "string-atom" "" "'b'" "" false .nil .nil .nil) .nil) .nil .nil
  let group := GNode.mk "group-atom" "" "('a' 'b')" "" false
    (.cons itemA (.cons itemB .nil)) .nil .nil
  let item := GNode.mk "atom-item" "" "('a' 'b')" "" false (.cons group .nil) .nil .nil
  let choice := GNode.mk "choice" "" "('a' 'b')" "" false (.cons item .nil) .nil .nil
  GNode.mk "rule" "r" "r: | ('a' 'b')" "" false (.cons choice .nil) .nil .nil

/-! ## Left-recursion classification (src/unnamed/part_003, `Stage32`)

`gramLeftMost` descends the leftmost items of a choice accumulating rule
names; `genGrammarRuleCode` classifies a choice as left-recursive when the
enclosing rule's name is in the resulting set.  The Go set is a
`map[string]bool`; it is modelled as a duplicate-free insertion list. -/

/-- Go `m[k] = true` on a string set modelled as a list. -/
def addKey (l : List String) (k : String) : List String :=
  if l.contains k then l else l ++ [k]

mutual
/-- Embedding of `Stage32.gramLeftMost` (part_003 lines 64-91).  Returns
the extended leftmost set and the `cont` flag.  Note that the name
recorded at a `NameAtom` is the atom's snippet text, exactly as in the
source (`leftmost[node.Snippet().Text()] = true`). -/
def gramLeftMost : GNode → List String → List String × Bool
  | .mk k _ snip _ _ children _ _, lm =>
    if k = "choice" then (gramLeftMostItems children lm, false)
    else if k = "optional-item" || k = "repeat-0-item" ||
            k = "separated-repeat-0-item" || k = "negative-lookahead-item" then
      (match children with
       | .nil => lm
       | .cons c _ => (gramLeftMost c lm).1, true)
    else if k = "repeat-1-item" || k = "atom-item" ||
            k = "separated-repeat-1-item" || k = "positive-lookahead-item" then
      (match children with
       | .nil => lm
       | .cons c _ => (gramLeftMost c lm).1, false)
    else if k = "name-atom" then (addKey lm snip, false)
    else (lm, false)
/-- The item loop of the `Choice` case: visit items while `cont` holds. -/
def gramLeftMostItems : GForest → List String → List String
  | .nil, lm => lm
  | .cons item rest, lm =>
    let (lm', cont) := gramLeftMost item lm
    if cont then gramLeftMostItems rest lm' else lm'
end

mutual
/-- Modelled from the spec: the leftmost set as described in section 4.2 —
identical descent to `gramLeftMost`, but recording the `name` attribute of
a `NameAtom` ("on reaching a NameAtom, record the name and stop") instead
of its snippet text. -/
def leftmostSpec : GNode → List String → List String × Bool
  | .mk k nm _ _ _ children _ _, lm =>
    if k = "choice" then (leftmostSpecItems children lm, false)
    else if k = "optional-item" || k = "repeat-0-item" ||
            k = "separated-repeat-0-item" || k = "negative-lookahead-item" then
      (match children with
       | .nil => lm
       | .cons c _ => (leftmostSpec c lm).1, true)
    else if k = "repeat-1-item" || k = "atom-item" ||
            k = "separated-repeat-1-item" || k = "positive-lookahead-item" then
      (match children with
       | .nil => lm
       | .cons c _ => (leftmostSpec c lm).1, false)
    else if k = "name-atom" then (addKey lm nm, false)
    else (lm, false)
def leftmostSpecItems : GForest → List String → List String
  | .nil, lm => lm
  | .cons item rest, lm =>
    let (lm', cont) := leftmostSpec item lm
    if cont then leftmostSpecItems rest lm' else lm'
end

/-- The classification test of `Stage32.genGrammarRuleCode` (part_003
lines 47-55): a choice goes to the left-recursive bucket exactly when the
rule's name is in its computed leftmost set. -/
def choiceIsLeftRec (ruleName : String) (c : GNode) : Bool :=
  (gramLeftMost c []).1.contains ruleName

/-- The partition of a rule's choices into `(leftRecChoices,
simpleChoices)` built by `genGrammarRuleCode`, preserving source order. -/
def genGrammarRulePartition (rule : GNode) : List GNode × List GNode :=
  (rule.children.toList.filter (choiceIsLeftRec rule.name),
   rule.children.toList.filter (fun c => !choiceIsLeftRec rule.name c))

/-! ## Naming utilities (src/util/case.go, safe_name.go, padding.go) -/

/-- The character loop of `toPascalOrCamelCase` (case.go lines 8-24):
`first` is true at index 0; an underscore after the first character is
dropped and upper-cases the next letter. -/
def pcGo : List Char → Bool → Bool → List Char
  | [], _, _ => []
  | r :: rest, first, shouldUpper =>
    if !first && r = '_' then pcGo rest false true
    else if shouldUpper && r.isAlpha then r.toUpper :: pcGo rest false false
    else r.toLower :: pcGo rest false shouldUpper

/-- Embedding of `toPascalOrCamelCase`; `unicode.IsLetter/ToUpper/ToLower`
are modelled by their ASCII behaviour (identifiers in specs are ASCII). -/
def toPascalOrCamelCase (s : String) (isPascalCase : Bool) : String :=
  String.mk (pcGo s.toList true isPascalCase)

/-- Embedding of `util.ToPascalCase`. -/
def ToPascalCase (s : String) : String := toPascalOrCamelCase s true

/-- Embedding of `util.ToCamelCase`. -/
def ToCamelCase (s : String) : String := toPascalOrCamelCase s false

/-- The reserved names of `util.SafeName` (safe_name.go lines 10-17). -/
def goReservedNames : List String :=
  ["break", "case", "chan", "const", "continue", "default", "defer", "else",
   "false", "fallthrough", "for", "func", "go", "goto", "if", "import",
   "int", "interface", "map", "nil", "package", "range", "return", "select",
   "string", "struct", "switch", "true", "type", "var", "max", "min", "len"]

/-- Embedding of `util.SafeName`. -/
def SafeName (nm : String) : String :=
  if goReservedNames.contains nm then nm ++ "_" else nm

/-- Embedding of `util.MakePadding`. -/
def MakePadding (count : Nat) (c : Char) : String :=
  String.mk (List.replicate count c)

/-- Go `strings.ToLower` on ASCII. -/
def strToLower (s : String) : String := String.mk (s.toList.map Char.toLower)

/-- Go regexp whitespace class membership (`\s` is `[\t\n\f\r ]`). -/
def isGoWs (c : Char) : Bool :=
  c = ' ' || c = '\t' || c = '\n' || c.toNat = 12 || c = '\r'

/-- Collapse every whitespace run to one space, the effect of
`regexp.MustCompile(..).ReplaceAllString(text, " ")` in `gramChoicesCode`. -/
def collapseWsGo : List Char → Bool → List Char
  | [], _ => []
  | c :: rest, inWs =>
    if isGoWs c then
      if inWs then collapseWsGo rest true else ' ' :: collapseWsGo rest true
    else c :: collapseWsGo rest false

def collapseWs (s : String) : String := String.mk (collapseWsGo s.toList false)

/-- Byte-wise `≤` on char lists (Go `sort.Strings` order on ASCII). -/
def leListChar : List Char → List Char → Bool
  | [], _ => true
  | _ :: _, [] => false
  | a :: as_, b :: bs => if a = b then leListChar as_ bs else decide (a < b)

def strLeB (a b : String) : Bool := leListChar a.toList b.toList

/-- Go `sort.Strings`. -/
def sortStrings (l : List String) : List String := l.mergeSort strLeB

/-- Inner text of a quoted snippet, Go `val[1 : len(val)-1]`. -/
def snippetInner (s : String) : String :=
  String.mk ((s.toList.drop 1).take (s.toList.length - 2))

/-- String-valued double-quote escaping used by the emitters, built on the
byte-level `DoubleQuoteStringEscape`. -/
def DoubleQuoteStringEscapeS (s : String) : String :=
  String.mk ((DoubleQuoteStringEscape (s.toList.map Char.toNat)).map Char.ofNat)

/-! ## Code emitter state (src/langgen: `Printer` + `VariableManager`)

`Gen` bundles the printer (indent level and emitted lines, each line
stored with its indentation applied) and the variable table.  `{` and `}`
inside emitted text are written `\x7b` and `\x7d`. -/

/-- Reserved variable seed of the table (config `reservedVariables`). -/
def reservedVariables : List String := ["_", "ps", "tk", "pos", "group"]

structure Gen where
  ind : Nat
  lines : List String
  table : List String
  deriving Repr, DecidableEq

def tabs : Nat → String
  | 0 => ""
  | n + 1 => "\t" ++ tabs n

/-- Embedding of `Printer.put`: append one line at the current indent (an
empty format writes a bare newline). -/
def Gen.put (g : Gen) (s : String) : Gen :=
  { g with lines := g.lines ++ [if s = "" then "" else tabs g.ind ++ s] }

def Gen.putNL (g : Gen) : Gen := { g with lines := g.lines ++ [""] }

def Gen.push (g : Gen) : Gen := { g with ind := g.ind + 1 }

def Gen.pop (g : Gen) : Gen := { g with ind := g.ind - 1 }

/-- Embedding of `VariableManager.clearVar`: reset the table to the
reserved names. -/
def Gen.clearVar (g : Gen) : Gen := { g with table := reservedVariables }

/-- The unbounded search loop of `createVar`, fuelled; `table.length + 1`
rounds always find a free candidate because the candidates are pairwise
distinct. -/
def createVarLoop (table : List String) (base : String) : Nat → Nat → String
  | 0, i => base ++ toString i
  | fuel + 1, i =>
    let cand := if i = 0 then base else base ++ toString i
    if table.contains cand then createVarLoop table base fuel (i + 1) else cand

/-- Embedding of `VariableManager.createVar`: prefix `_` when missing, take
the first unused of `_x`, `_x1`, `_x2`, ..., and register it. -/
def Gen.createVar (g : Gen) (nm : String) : String × Gen :=
  let base := if nm.startsWith "_" then nm else "_" ++ nm
  let v := createVarLoop g.table base (g.table.length + 1) 0
  (v, { g with table := g.table ++ [v] })

/-- A fresh generator (`langgen.NewGenerator`). -/
def newGen : Gen := { ind := 0, lines := [], table := reservedVariables }

/-- The language maps `Stage32` consults for `StringAtom` emission:
`OperatorMap` (operator text to derived name) and the keyword set. -/
structure LangMaps where
  operatorMap : List (String × String)
  keywords : List String

/-- Go `OperatorMap()[val]` — map read with `""` default. -/
def LangMaps.opName (L : LangMaps) (v : String) : String :=
  (slookup L.operatorMap v).getD ""

/-! ## Grammar code generation (src/unnamed/part_003, `Stage32`) -/

mutual
/-- Embedding of `Stage32.gramItemNames` (part_003 lines 219-242): collect
the bind labels of a choice, in source order. -/
def gramItemNames : GNode → List String → List String
  | n, names =>
    if n.kind = "choice" then gramItemNamesF n.children names
    else if n.kind = "optional-item" || n.kind = "repeat-0-item" ||
            n.kind = "separated-repeat-0-item" || n.kind = "negative-lookahead-item" ||
            n.kind = "repeat-1-item" || n.kind = "atom-item" ||
            n.kind = "separated-repeat-1-item" || n.kind = "positive-lookahead-item" then
      let names1 := if n.name ≠ "" then names ++ [n.name] else names
      match hc : n.children with
      | .nil => names1
      | .cons c _ => gramItemNames c names1
    else if n.kind = "group-atom" then gramItemNamesF n.children names
    else names
termination_by n _ => gsizeN n
decreasing_by
  all_goals first
    | (cases n; simp_all [gsizeN, gsizeF, GNode.children] <;> omega)
    | (simp_all [gsizeN, gsizeF] <;> omega)
def gramItemNamesF : GForest → List String → List String
  | .nil, names => names
  | .cons h t, names => gramItemNamesF t (gramItemNames h names)
termination_by f _ => gsizeF f
decreasing_by all_goals (simp_all [gsizeN, gsizeF] <;> omega)
end

mutual
/-- Embedding of `Stage32.gramActionCode` (part_003 lines 530-558). -/
def gramActionCode : GNode → String → String
  | a, leftVar =>
    let position :=
      if leftVar ≠ "" then
        leftVar ++ ".RangeStart(), ps._visibleTokenBefore(ps._mark()).End"
      else "ps._tokens[pos].Start, ps._visibleTokenBefore(ps._mark()).End"
    if a.kind = "call-action" then
      let args := gramActionArgs a.children leftVar
      let argsText := String.intercalate ", " args
      if a.name.startsWith "_" then
        "ps." ++ ToCamelCase a.name ++ "(" ++ argsText ++ ")"
      else
        let position1 := if argsText ≠ "" then ", " ++ position else position
        "New" ++ ToPascalCase a.name ++
          "Node(ps._filePath, ps._fileContent, " ++ argsText ++ position1 ++ ")"
    else if a.kind = "list-action" then
      match hc : a.children with
      | .cons c _ => "NewNodesNode([]Node\x7b" ++ gramActionCode c leftVar ++ "\x7d)"
      | .nil => "NewNodesNode([]Node\x7b\x7d)"
    else if a.kind = "null-action" then "nil"
    else a.snippet
termination_by a _ => gsizeN a
decreasing_by
  all_goals first
    | (cases a; simp_all [gsizeN, gsizeF, GNode.children] <;> omega)
    | (simp_all [gsizeN, gsizeF] <;> omega)
def gramActionArgs : GForest → String → List String
  | .nil, _ => []
  | .cons h t, leftVar => gramActionCode h leftVar :: gramActionArgs t leftVar
termination_by f _ => gsizeF f
decreasing_by all_goals (simp_all [gsizeN, gsizeF] <;> omega)
end

mutual
/-- Embedding of `Stage32.gramCode` (part_003 lines 244-528): emit the
parser code of one grammar node.  `itemName` is the local receiving the
node's result, `leftVar` the incoming left operand of a right-part choice.
The `default` arm of the Go switch panics (`this should never happen`);
the model leaves the generator unchanged there, and likewise where the Go
code would dereference a nil `Child()`. -/
def gramCode (L : LangMaps) (g : Gen) (node : GNode) (itemName leftVar : String) : Gen :=
  if node.kind = "choice" then
    let g := g.clearVar
    let g := (g.put "for \x7b").push
    let names := sortStrings (gramItemNames node [])
    let g := names.foldl (fun g n => g.put ("var " ++ n ++ " Node")) g
    let g := gramChoiceItems L g node.children 0 "" leftVar
    let g :=
      match node.action with
      | .nil => g.put "return _1"
      | .cons a _ =>
        if a.kind = "null-action" then g.put "return dummyNode"
        else g.put ("return " ++ gramActionCode a leftVar)
    (g.pop).put "\x7d"
  else if node.kind = "optional-item" then
    let (itemName, g) :=
      if itemName = "" then
        let (v, g) := g.createVar "_"
        (v, g.put ("var " ++ v ++ " Node"))
      else (itemName, g)
    let g := gramCodeChild L g node itemName ""
    g.put ("_ = " ++ itemName)
  else if node.kind = "repeat-0-item" then
    let (itemName, g) :=
      if itemName = "" then
        let (v, g) := g.createVar "_"
        (v, g.put ("var " ++ v ++ " Node"))
      else (itemName, g)
    let (tmpVar, g) := g.createVar "_"
    let g := g.put (tmpVar ++ " := make([]Node, 0)")
    let (itemVar, g) := g.createVar "_"
    let g := g.put ("var " ++ itemVar ++ " Node")
    let g := (g.put "for \x7b").push
    let g := gramCodeChild L g node itemVar ""
    let g := ((((g.put ("if " ++ itemVar ++ " == nil \x7b")).push).put "break").pop).put "\x7d"
    let g := g.put (tmpVar ++ " = append(" ++ tmpVar ++ ", " ++ itemVar ++ ")")
    let g := (g.pop).put "\x7d"
    let g := g.put (itemName ++ " = NewNodesNode(" ++ tmpVar ++ ")")
    g.put ("_ = " ++ itemName)
  else if node.kind = "repeat-1-item" then
    let (itemName, g) :=
      if itemName = "" then
        let (v, g) := g.createVar "_"
        (v, g.put ("var " ++ v ++ " Node"))
      else (itemName, g)
    let (tmpVar, g) := g.createVar "_"
    let g := g.put (tmpVar ++ " := make([]Node, 0)")
    let (itemVar, g) := g.createVar "_"
    let g := g.put ("var " ++ itemVar ++ " Node")
    let g := gramCodeChild L g node itemVar ""
    let g := ((((g.put ("if " ++ itemVar ++ " == nil \x7b")).push).put "break").pop).put "\x7d"
    let g := g.put (tmpVar ++ " = append(" ++ tmpVar ++ ", " ++ itemVar ++ ")")
    let g := (g.put "for \x7b").push
    let g := gramCodeChild L g node itemVar ""
    let g := ((((g.put ("if " ++ itemVar ++ " == nil \x7b")).push).put "break").pop).put "\x7d"
    let g := g.put (tmpVar ++ " = append(" ++ tmpVar ++ ", " ++ itemVar ++ ")")
    let g := (g.pop).put "\x7d"
    let g := g.put (itemName ++ " = NewNodesNode(" ++ tmpVar ++ ")")
    g.put ("_ = " ++ itemName)
  else if node.kind = "separated-repeat-0-item" then
    let (itemName, g) :=
      if itemName = "" then
        let (v, g) := g.createVar "_"
        (v, g.put ("var " ++ v ++ " Node"))
      else (itemName, g)
    let (tmpVar, g) := g.createVar "_"
    let g := g.put (tmpVar ++ " := make([]Node, 0)")
    let (itemVar, g) := g.createVar "_"
    let (sepVar, g) := g.createVar "_"
    let g := g.put ("var " ++ itemVar ++ " Node")
    let g := g.put ("var " ++ sepVar ++ " Node")
    let g := gramCodeChild L g node itemVar ""
    let g := ((g.put ("if " ++ itemVar ++ " != nil \x7b")).push)
    let g := g.put (tmpVar ++ " = append(" ++ tmpVar ++ ", " ++ itemVar ++ ")")
    let g := (g.put "for \x7b").push
    let (posVar, g) := g.createVar "p"
    let g := g.put (posVar ++ " := ps._mark()")
    let g := gramCodeSep L g node sepVar ""
    let g := ((((g.put ("if " ++ sepVar ++ " == nil \x7b")).push).put "break").pop).put "\x7d"
    let g := gramCodeChild L g node itemVar ""
    let g := ((g.put ("if " ++ itemVar ++ " == nil \x7b")).push).put ("ps._reset(" ++ posVar ++ ")")
    let g := ((g.put "break").pop).put "\x7d"
    let g := g.put (tmpVar ++ " = append(" ++ tmpVar ++ ", " ++ itemVar ++ ")")
    let g := (g.pop).put "\x7d"
    let g := (g.pop).put "\x7d"
    let g := g.put (itemName ++ " = NewNodesNode(" ++ tmpVar ++ ")")
    g.put ("_ = " ++ itemName)
  else if node.kind = "separated-repeat-1-item" then
    let (itemName, g) :=
      if itemName = "" then
        let (v, g) := g.createVar "_"
        (v, g.put ("var " ++ v ++ " Node"))
      else (itemName, g)
    let (tmpVar, g) := g.createVar "_"
    let g := g.put (tmpVar ++ " := make([]Node, 0)")
    let (itemVar, g) := g.createVar "_"
    let (sepVar, g) := g.createVar "_"
    let g := g.put ("var " ++ itemVar ++ ", " ++ sepVar ++ " Node")
    let g := gramCodeChild L g node itemVar ""
    let g := ((((g.put ("if " ++ itemVar ++ " == nil \x7b")).push).put "break").pop).put "\x7d"
    let g := g.put (tmpVar ++ " = append(" ++ tmpVar ++ ", " ++ itemVar ++ ")")
    let g := (g.put "for \x7b").push
    let (posVar, g) := g.createVar "p"
    let g := g.put (posVar ++ " := ps._mark()")
    let g := gramCodeSep L g node sepVar ""
    let g := ((((g.put ("if " ++ sepVar ++ " == nil \x7b")).push).put "break").pop).put "\x7d"
    let g := gramCodeChild L g node itemVar ""
    let g := ((g.put ("if " ++ itemVar ++ " == nil \x7b")).push).put ("ps._reset(" ++ posVar ++ ")")
    let g := ((g.put "break").pop).put "\x7d"
    let g := g.put (tmpVar ++ " = append(" ++ tmpVar ++ ", " ++ itemVar ++ ")")
    let g := (g.pop).put "\x7d"
    let g := g.put (itemName ++ " = NewNodesNode(" ++ tmpVar ++ ")")
    g.put ("_ = " ++ itemName)
  else if node.kind = "positive-lookahead-item" || node.kind = "negative-lookahead-item" then
    let (itemName, g) :=
      if itemName = "" then
        let (v, g) := g.createVar "_"
        (v, g.put ("var " ++ v ++ " Node"))
      else (itemName, g)
    let (posVar, g) := g.createVar "p"
    let g := g.put (posVar ++ " := ps._mark()")
    let g := gramCodeChild L g node itemName ""
    let g := ((g.put ("if " ++ itemName ++ " != nil \x7b")).push).put ("ps._reset(" ++ posVar ++ ")")
    let g := (g.pop).put "\x7d"
    let g :=
      if node.kind = "negative-lookahead-item" then
        (g.put ("if " ++ itemName ++ " != nil \x7b")).push
      else (g.put ("if " ++ itemName ++ " == nil \x7b")).push
    ((g.put "break").pop).put "\x7d"
  else if node.kind = "forward-if-not-match-item" then
    let (itemName, g) :=
      if itemName = "" then
        let (v, g) := g.createVar "_"
        (v, g.put ("var " ++ v ++ " Node"))
      else (itemName, g)
    let (posVar, g) := g.createVar "p"
    let g := g.put (posVar ++ " := ps._mark()")
    let g := gramCodeChild L g node itemName ""
    let g := ((g.put ("if " ++ itemName ++ " != nil \x7b")).push).put ("ps._reset(" ++ posVar ++ ")")
    let g := (g.pop).put "\x7d"
    let g := ((g.put ("if " ++ itemName ++ " == nil \x7b")).push).put (itemName ++ " = ps._anyToken()")
    let g := ((g.pop).put "\x7d else \x7b").push
    ((g.put "break").pop).put "\x7d"
  else if node.kind = "atom-item" then
    let (itemName, g) :=
      if itemName = "" then
        let (v, g) := g.createVar "_"
        (v, g.put ("var " ++ v ++ " Node"))
      else (itemName, g)
    let g := gramCodeChild L g node itemName ""
    ((((g.put ("if " ++ itemName ++ " == nil \x7b")).push).put "break").pop).put "\x7d"
  else if node.kind = "name-atom" then
    g.put (itemName ++ " = ps." ++ SafeName (ToCamelCase node.name) ++ "()")
  else if node.kind = "token-atom" then
    let val := ToPascalCase (strToLower node.snippet)
    g.put (itemName ++ " = ps._expectK(TokenType" ++ val ++ ")")
  else if node.kind = "string-atom" then
    let val := snippetInner node.snippet
    let nm := L.opName val
    if nm ≠ "" then
      g.put (itemName ++ " = ps._expectK(TokenTypeOp" ++ ToPascalCase nm ++ ")")
    else if L.keywords.contains val then
      g.put (itemName ++ " = ps._expectK(TokenTypeKw" ++ ToPascalCase val ++ ")")
    else
      g.put (itemName ++ " = ps._expectV(\"" ++ DoubleQuoteStringEscapeS val ++ "\")")
  else if node.kind = "group-atom" then
    let inputItemName := itemName
    let (okVar, g) := g.createVar "ok"
    let (posVar, g) := g.createVar "p"
    let g := (g.put "for \x7b").push
    let g := g.put (okVar ++ " := false")
    let g := g.put (posVar ++ " := ps._mark()")
    let g := (g.put "for \x7b").push
    let (g, names) := gramGroupItems L g node.children inputItemName []
    let g := (g.put (okVar ++ " = true")).put "break"
    let g := (g.pop).put "\x7d"
    let g := ((g.put ("if !" ++ okVar ++ " \x7b")).push).put ("ps._reset(" ++ posVar ++ ")")
    let g := names.foldl (fun g n => g.put (n ++ " = nil")) g
    let g := (g.pop).put "\x7d"
    ((g.put "break").pop).put "\x7d"
  else if node.kind = "bracket-ellipsis-atom" then
    let (firstVar, g) := g.createVar "first"
    let (lastVar, g) := g.createVar "last"
    let text := node.snippet
    let leftBracket := String.mk (text.toList.take 2)
    let rightBracket := String.mk (text.toList.drop (text.toList.length - 2))
    let (depthVar, g) := g.createVar "depth"
    let g := (g.put "for \x7b").push
    let g := g.put ("var " ++ firstVar ++ ", " ++ lastVar ++ " Node")
    let g := ((g.put ("if " ++ firstVar ++ " = ps._expectV(\"" ++ leftBracket ++ "\"); " ++
      firstVar ++ " == nil \x7b")).push)
    let g := ((g.put "break").pop).put "\x7d"
    let g := g.put (depthVar ++ " := 1")
    let g := (g.put "for \x7b").push
    let g := ((g.put ("if ps._expectV(\"" ++ leftBracket ++ "\") != nil \x7b")).push).put (depthVar ++ "++")
    let g := ((g.pop).put ("\x7d else if " ++ lastVar ++ " = ps._expectV(\"" ++ rightBracket ++
      "\"); " ++ lastVar ++ " != nil \x7b")).push
    let g := g.put (depthVar ++ "--")
    let g := ((g.put ("if " ++ depthVar ++ " == 0 \x7b")).push).put "break"
    let g := (g.pop).put "\x7d"
    let g := ((g.pop).put "\x7d else if ps._expectK(TokenTypeEndOfFile) != nil \x7b").push
    let g := g.put "panic(\"bracket ellipsis reach end of file\")"
    let g := ((g.pop).put "\x7d else \x7b").push
    let g := g.put "ps._anyToken()"
    let g := (g.pop).put "\x7d"
    let g := (g.pop).put "\x7d"
    let g := g.put (itemName ++ " = ps._pseudoToken(" ++ firstVar ++ ", " ++ lastVar ++ ")")
    ((g.put "break").pop).put "\x7d"
  else g
termination_by 2 * gsizeN node + 1
decreasing_by
  all_goals first
    | (cases node; simp_all [gsizeN, gsizeF, GNode.children, GNode.separator] <;> omega)
    | (simp_all [gsizeN, gsizeF] <;> omega)
/-- Go `s.gramCode(node.Child(), itemName, leftVar)`: recurse into the
first child (nothing on a nil child, where Go would panic). -/
def gramCodeChild (L : LangMaps) (g : Gen) (node : GNode) (itemName leftVar : String) : Gen :=
  match h : node.children with
  | .nil => g
  | .cons c _ => gramCode L g c itemName leftVar
termination_by 2 * gsizeN node
decreasing_by
  all_goals (cases node; simp_all [gsizeN, gsizeF, GNode.children] <;> omega)
/-- Go `s.gramCode(node.Separator(), sepVar, "")`. -/
def gramCodeSep (L : LangMaps) (g : Gen) (node : GNode) (itemName leftVar : String) : Gen :=
  match h : node.separator with
  | .nil => g
  | .cons c _ => gramCode L g c itemName leftVar
termination_by 2 * gsizeN node
decreasing_by
  all_goals (cases node; simp_all [gsizeN, gsizeF, GNode.separator] <;> omega)
/-- The item loop of the `Choice` arm of `gramCode` (part_003 lines
254-275): with a left operand, item 0 is read from it; a `[` suffix opens
a cooperatively-backtracking region, a `]` suffix closes it. -/
def gramChoiceItems (L : LangMaps) (g : Gen) (items : GForest) (i : Nat)
    (breakVar leftVar : String) : Gen :=
  match items with
  | .nil => g
  | .cons item rest =>
    if leftVar ≠ "" && i = 0 then
      let g := g.put (item.name ++ " = " ++ leftVar)
      gramChoiceItems L g rest (i + 1) breakVar leftVar
    else
      let g := gramCode L g item item.name ""
      if item.suffix = "[" then
        let (bv, g) := g.createVar "break"
        let g := ((g.put (bv ++ " := true")).put "ps._enter()")
        let g := (g.put "for \x7b").push
        gramChoiceItems L g rest (i + 1) bv leftVar
      else if item.suffix = "]" then
        let g := (g.put (breakVar ++ " = false")).put "break"
        let g := (g.pop).put "\x7d"
        let g := g.put "ps._leave()"
        let g := ((g.put ("if " ++ breakVar ++ " \x7b")).push).put "break"
        let g := (g.pop).put "\x7d"
        gramChoiceItems L g rest (i + 1) breakVar leftVar
      else gramChoiceItems L g rest (i + 1) breakVar leftVar
termination_by 2 * gsizeF items
decreasing_by all_goals (simp_all [gsizeN, gsizeF] <;> omega)
/-- The item loop of the `GroupAtom` arm of `gramCode` (part_003 lines
464-483): the last item writes into the group's own local, earlier named
items are collected for the reset-clearing epilogue. -/
def gramGroupItems (L : LangMaps) (g : Gen) (items : GForest)
    (inputItemName : String) (names : List String) : Gen × List String :=
  match items with
  | .nil => (g, names)
  | .cons item .nil =>
    if item.name ≠ "" then
      let g := gramCode L g item item.name ""
      (g.put (inputItemName ++ " = " ++ item.name), names)
    else (gramCode L g item inputItemName "", names)
  | .cons item rest =>
    let (itemName, g, names) :=
      if item.name = "" then
        let (v, g) := g.createVar "_"
        (v, g.put ("var " ++ v ++ " Node"), names)
      else (item.name, g, names ++ [item.name])
    let g := gramCode L g item itemName ""
    gramGroupItems L g rest inputItemName names
termination_by 2 * gsizeF items
decreasing_by all_goals (simp_all [gsizeN, gsizeF] <;> omega)
end

/-- The choice loop of `Stage32.gramChoicesCode` (part_003 lines 188-207),
threading the `posDefined` flag. -/
def gramChoicesGo (L : LangMaps) (g : Gen) : List GNode → String → Bool → Gen
  | [], _, _ => g
  | c :: rest, leftVar, posDefined =>
    let g := (g.put ("/* " ++ collapseWs c.snippet)).put " */"
    let needMarkReset := 2 ≤ c.children.length || !c.action.isNil
    let (g, posDefined) :=
      if needMarkReset && !posDefined then (g.put "pos := ps._mark()", true)
      else (g, posDefined)
    let g := gramCode L g c "" leftVar
    let g := if needMarkReset then g.put "ps._reset(pos)" else g
    gramChoicesGo L g rest leftVar posDefined

/-- Embedding of `Stage32.gramChoicesCode`. -/
def gramChoicesCode (L : LangMaps) (g : Gen) (choices : List GNode) (leftVar : String) : Gen :=
  gramChoicesGo L g choices leftVar false

/-- Embedding of `Stage32.gramMemoCode` (part_003 lines 93-115): the
packrat wrapper emitted for a `(memo)` rule. -/
def gramMemoCode (g : Gen) (funName : String) : Gen :=
  let g := (g.put ("func (ps *Parser) " ++ funName ++ "() Node \x7b")).push
  let g := g.put "pos := ps._mark()"
  let g := g.put "var ok bool"
  let g := g.put "var cache *NodeCache"
  let g := g.put "cacheAtPos := ps._nodeCache[pos]"
  let g := (g.put "if cacheAtPos != nil \x7b").push
  let g := (g.put ("if cache, ok = cacheAtPos[" ++ funName ++ "MemoId]; ok \x7b")).push
  let g := (g.put "if cache.val == nil \x7b").push
  let g := (g.put "return nil").pop
  let g := g.put "\x7d"
  let g := g.put "ps._reset(cache.pos)"
  let g := (g.put "return cache.val").pop
  let g := (g.put "\x7d").pop
  let g := (g.put "\x7d else \x7b").push
  let g := g.put "cacheAtPos = make(map[int]*NodeCache)"
  let g := (g.put "ps._nodeCache[pos] = cacheAtPos").pop
  let g := g.put "\x7d"
  let g := g.put ("t := ps." ++ funName ++ "_()")
  let g := g.put ("cacheAtPos[" ++ funName ++ "MemoId] = &NodeCache\x7bt, ps._mark()\x7d")
  let g := (g.put "return t").pop
  (g.put "\x7d").putNL

/-- The `_group_N <-- snippet` comment lines produced by `rule.Visit` in
`gramSimpleRuleCode` / `gramLeftRecRuleCode`. -/
def gramGroupComments (g : Gen) (rule : GNode) : Gen :=
  (allNodes rule).foldl
    (fun g n =>
      if n.kind = "name-atom" && n.name.startsWith "_group_" then
        g.put (n.name ++ " <-- " ++ n.snippet)
      else g) g

/-- The doc-comment block shared by both rule emitters (part_003 lines
126-135 and 152-161). -/
def gramRuleComment (g : Gen) (rule : GNode) (memo : String) : Gen :=
  let g := g.put ("/*\n" ++ rule.name ++ memo ++ ":")
  let g := rule.children.toList.foldl (fun g c => g.put ("| " ++ c.snippet)) g
  let g := gramGroupComments g rule
  g.put "*/"

/-- Embedding of `Stage32.gramSimpleRuleCode` (part_003 lines 117-141). -/
def gramSimpleRuleCode (L : LangMaps) (g : Gen) (rule : GNode) : Gen :=
  let funName0 := SafeName (ToCamelCase rule.name)
  let (g, memo, funName) :=
    if rule.ruleMemo then (gramMemoCode g funName0, "!", funName0 ++ "_")
    else (g, "", funName0)
  let g := gramRuleComment g rule memo
  let g := (g.put ("func (ps *Parser) " ++ funName ++ "() Node \x7b")).push
  let g := gramChoicesCode L g rule.children.toList ""
  let g := g.put "return nil"
  ((g.pop).put "\x7d").putNL

/-- The `LeftMost` function block of `gramLeftRecRuleCode` (part_003 lines
177-180): header, the non-left-recursive choices, `return nil`. -/
def gramLeftMostFun (L : LangMaps) (g : Gen) (camelName : String)
    (simpleChoices : List GNode) : Gen :=
  let g := (g.put ("func (ps *Parser) " ++ camelName ++ "LeftMost() Node \x7b")).push
  let g := gramChoicesCode L g simpleChoices ""
  let g := g.put "return nil"
  ((g.pop).put "\x7d").putNL

/-- The `RightPart` function block of `gramLeftRecRuleCode` (part_003 lines
182-185). -/
def gramRightPartFun (L : LangMaps) (g : Gen) (camelName : String)
    (leftRecChoices : List GNode) : Gen :=
  let g := (g.put ("func (ps *Parser) " ++ camelName ++ "RightPart(_left Node) Node \x7b")).push
  let g := gramChoicesCode L g leftRecChoices "_left"
  let g := g.put "return nil"
  ((g.pop).put "\x7d").putNL

/-- Embedding of `Stage32.gramLeftRecRuleCode` (part_003 lines 143-186). -/
def gramLeftRecRuleCode (L : LangMaps) (g : Gen) (rule : GNode)
    (leftRecChoices simpleChoices : List GNode) : Gen :=
  let funName0 := SafeName (ToCamelCase rule.name)
  let (g, memo, funName) :=
    if rule.ruleMemo then (gramMemoCode g funName0, "!", funName0 ++ "_")
    else (g, "", funName0)
  let g := gramRuleComment g rule memo
  let camelName := ToCamelCase rule.name
  let g := (g.put ("func (ps *Parser) " ++ funName ++ "() Node \x7b")).push
  let g := g.put ("_left := ps." ++ camelName ++ "LeftMost()")
  let g := (g.put "if _left == nil \x7b").push
  let g := g.put "return nil"
  let g := (g.pop).put "\x7d"
  let g := g.put ("_ret := ps." ++ camelName ++ "RightPart(_left)")
  let g := (g.put "for _ret != nil \x7b").push
  let g := g.put "_left = _ret"
  let g := g.put ("_ret = ps." ++ camelName ++ "RightPart(_left)")
  let g := (g.pop).put "\x7d"
  let g := g.put "return _left"
  let g := ((g.pop).put "\x7d").putNL
  let g := gramLeftMostFun L g camelName simpleChoices
  gramRightPartFun L g camelName leftRecChoices

/-- Embedding of `Stage32.genGrammarRuleCode` (part_003 lines 44-62):
classify each choice by the leftmost set and dispatch to the
left-recursive or the simple emitter. -/
def genGrammarRuleCode (L : LangMaps) (g : Gen) (rule : GNode) : Gen :=
  let (leftRecChoices, simpleChoices) := genGrammarRulePartition rule
  if leftRecChoices.length > 0 then
    gramLeftRecRuleCode L g rule leftRecChoices simpleChoices
  else gramSimpleRuleCode L g rule

/-! ## Semantics of the emitted memo wrapper (claim C3)

A behavioural model of the code `gramMemoCode` emits, over an abstract
node type `α`: the parser state carries the token position and
`_nodeCache`, a map from position to a map from memo id to
`(node-or-nil, end-position)` entries. -/

structure ParserMemoState (α : Type) where
  pos : Nat
  nodeCache : List (Nat × List (Nat × (Option α × Nat)))

/-- Write-through to the inner cache map at a position (the Go code writes
through the `cacheAtPos` alias, which is the map stored at `pos`). -/
def cacheInsert {α : Type} (c : List (Nat × List (Nat × (Option α × Nat))))
    (pos memoId : Nat) (v : Option α × Nat) :
    List (Nat × List (Nat × (Option α × Nat))) :=
  aset c pos (aset ((alookup c pos).getD []) memoId v)

/-- Semantics of the wrapper emitted by `gramMemoCode`: on a hit with a nil
cached value return nil; on a hit with a node reset to the cached position
and return it; on a miss (allocating the per-position map when absent) run
the body `R_`, store `(result, position after the body)` and return the
result. -/
def memoWrapperSem {α : Type} (memoId : Nat)
    (body : ParserMemoState α → Option α × ParserMemoState α)
    (ps : ParserMemoState α) : Option α × ParserMemoState α :=
  let pos := ps.pos
  match alookup ps.nodeCache pos with
  | some cacheAtPos =>
    match alookup cacheAtPos memoId with
    | some (val, cpos) =>
      match val with
      | none => (none, ps)
      | some v => (some v, { ps with pos := cpos })
    | none =>
      let (t, ps1) := body ps
      (t, { ps1 with nodeCache := cacheInsert ps1.nodeCache pos memoId (t, ps1.pos) })
  | none =>
    let psA : ParserMemoState α := { ps with nodeCache := aset ps.nodeCache pos [] }
    let (t, ps1) := body psA
    (t, { ps1 with nodeCache := cacheInsert ps1.nodeCache pos memoId (t, ps1.pos) })

/-! ## Semantics of the emitted left-recursion driver (claim C9) -/

/-- The `for _ret != nil` loop of the emitted public function, fuelled:
state is `_left`; each round calls `RightPart` on it. -/
def pubRuleLoop {σ α : Type} (rp : α → σ → Option α × σ) :
    Nat → α → σ → α × σ
  | 0, lv, s => (lv, s)
  | fuel + 1, lv, s =>
    match rp lv s with
    | (none, s1) => (lv, s1)
    | (some rv, s1) => pubRuleLoop rp fuel rv s1

/-- Semantics of the emitted public function of a left-recursive rule:
`_left := LeftMost(); if _left == nil return nil; iterate RightPart;
return _left`. -/
def pubRuleSem {σ α : Type} (fuel : Nat) (lm : σ → Option α × σ)
    (rp : α → σ → Option α × σ) (s : σ) : Option α × σ :=
  match lm s with
  | (none, s1) => (none, s1)
  | (some lv, s1) =>
    let (l, s2) := pubRuleLoop rp fuel lv s1
    (some l, s2)

/-! ## AST constructor emission (src/stages/stage3_3.go, claim C4) -/

/-- Embedding of `models.Name` (src/models/name.go): the three derived
spellings of a field name. -/
structure ModelsName where
  normal : String
  camel : String
  pascal : String

/-- Embedding of `models.NewName`. -/
def NewName (val : String) : ModelsName :=
  ⟨SafeName val, SafeName (ToCamelCase val), ToPascalCase val⟩

/-- An AST node declaration as consumed by `Stage33`. -/
structure AstNodeDecl where
  name : String
  args : List ModelsName

/-- Embedding of `models.NewAstNode` (name plus field list). -/
def NewAstNode (name : String) (args : List String) : AstNodeDecl :=
  ⟨name, args.map NewName⟩

/-- Embedding of the constructor block of `Stage33.nodeInterfaceAndStructs`
(stage3_3.go lines 46-75): the `New<Pascal>Node` function with the
nil-to-dummy substitutions and the aligned struct literal. -/
def nodeConstructorCode (g : Gen) (node : AstNodeDecl) : Gen :=
  let pascalName := ToPascalCase node.name
  let params := String.join (node.args.map (fun a => a.camel ++ " Node, "))
  let g := (g.put ("func New" ++ pascalName ++ "Node(filePath string, fileContent []rune, " ++
    params ++ "start, end Position) Node \x7b")).push
  let maxLen := node.args.foldl (fun m a => max m a.camel.length) 0
  let g := node.args.foldl
    (fun g a =>
      let g := (g.put ("if " ++ a.camel ++ " == nil \x7b")).push
      let g := g.put (a.camel ++ " = dummyNode")
      (g.pop).put "\x7d") g
  let maxLen8 := max maxLen 8
  let g := (g.put ("return &" ++ pascalName ++ "Node\x7b")).push
  let g := g.put ("BaseNode:" ++ MakePadding (maxLen8 - 8) ' ' ++
    " NewBaseNode(filePath, fileContent, NodeType" ++ pascalName ++ ", start, end),")
  let g := node.args.foldl
    (fun g a => g.put (a.camel ++ ":" ++ MakePadding (maxLen8 - a.camel.length) ' ' ++
      " " ++ a.camel ++ ",")) g
  let g := (g.pop).put "\x7d"
  (((g.pop).put "\x7d")).putNL

/-! ## Operator trie (src/stages/op_tree.go, claim C8) -/

/-- Embedding of `stages.OperatorNode`: byte, operator name (empty on
intermediate nodes), level, and the child map (association list on the
extending byte; the Go struct additionally keeps the insertion-ordered key
list, which only affects emission order, not recognition). -/
inductive OperatorNode where
  | mk (ch : Nat) (name : String) (level : Nat)
       (children : List (Nat × OperatorNode)) : OperatorNode

def OperatorNode.ch : OperatorNode → Nat
  | .mk c _ _ _ => c

def OperatorNode.opName : OperatorNode → String
  | .mk _ n _ _ => n

def OperatorNode.level : OperatorNode → Nat
  | .mk _ _ l _ => l

def OperatorNode.children : OperatorNode → List (Nat × OperatorNode)
  | .mk _ _ _ cs => cs

/-- Embedding of `OperatorNode.Update` (op_tree.go lines 28-42), with the
still-unconsumed bytes in place of the `level` index: at the end of the
operator set the node's name; otherwise descend into (or create) the child
for the next byte. -/
def OperatorNode.Update : OperatorNode → String → List Nat → OperatorNode
  | .mk ch _ lvl children, nm, [] => .mk ch nm lvl children
  | .mk ch onm lvl children, nm, b :: rest =>
    match alookup children b with
    | some sub => .mk ch onm lvl (aset children b (sub.Update nm rest))
    | none =>
      .mk ch onm lvl (children ++ [(b, (OperatorNode.mk b "" (lvl + 1) []).Update nm rest)])

/-- The trie construction of `Stage31.genTokenizerOpCode` (stage3_1.go
lines 59-69): fold `Update` over the `(derived name, operator bytes)`
pairs starting from `NewOperatorNode(0, 0)`. -/
def buildOpTree (ops : List (String × List Nat)) : OperatorNode :=
  ops.foldl (fun t p => t.Update p.1 p.2) (.mk 0 "" 0 [])

/-- Behaviour of the code emitted by `OperatorNode.GenCode` /
`genChildCode` (op_tree.go lines 51-87) on an input byte stream: follow
the unique child matching the lookahead, preferring the deepest named
node (the emitted code marks before each unnamed extension and resets when
it fails, so an unnamed dead end falls back to the last named node
passed).  Returns the operator name and the number of bytes consumed. -/
def trieMatch : OperatorNode → List Nat → Option (String × Nat)
  | _, [] => none
  | n, b :: rest =>
    match alookup n.children b with
    | none => none
    | some c =>
      match trieMatch c rest with
      | some (nm, k) => some (nm, k + 1)
      | none => if c.opName ≠ "" then some (c.opName, 1) else none

/-- The guard of one `longestOpMatch` step, shared with the `Update`
characterisation: the operator's bytes are nonempty, they prefix the
input, and the match found so far is no longer than they are. -/
def updCond (bs input : List Nat) (old : Option (String × Nat)) : Bool :=
  !bs.isEmpty && isPre bs input &&
    (match old with
     | none => true
     | some p => p.2 ≤ bs.length)

/-- Modelled from the spec: the longest declared operator matching at the
current position — scan the operators in declaration order and keep the
longest (ties, which can only be the same operator string repeated, keep
the later one, matching `Update`'s overwrite). -/
def longestOpMatch (ops : List (String × List Nat)) (input : List Nat) :
    Option (String × Nat) :=
  ops.foldl
    (fun best p => if updCond p.2 input best then some (p.1, p.2.length) else best)
    none

/-- Concrete choice `expr '+'` of the rule `expr` — directly left
recursive (used as witness input). -/
def cexLeftRecChoice : GNode :=
  GNode.mk "choice" "" "expr '+'" "" false
    (.cons (GNode.mk "atom-item" "" "expr" "" false
        (.cons (GNode.mk "name-atom" "expr" "expr" "" false .nil .nil .nil) .nil) .nil .nil)
      (.cons (GNode.mk "atom-item" "" "'+'" "" false
          (.cons (GNode.mk "string-atom" "" "'+'" "" false .nil .nil .nil) .nil) .nil .nil)
        .nil)) .nil .nil

/-- Concrete rule `expr: | expr '+'` whose only choice is left-recursive. -/
def cexLeftRecRule : GNode :=
  GNode.mk "rule" "expr" "expr: | expr '+'" "" false (.cons cexLeftRecChoice .nil) .nil .nil

/-! ## Theorems -/

/-! ### Position (claim C10) -/

theorem lastIndexNL_ge_neg_one (t : List Char) : -1 ≤ lastIndexNL t := by
  induction t with
  | nil => simp [lastIndexNL]
  | cons c rest ih =>
    simp only [lastIndexNL]
    split
    · omega
    · split <;> omega

theorem lastIndexNL_neg (t : List Char) (h : countNL t = 0) : lastIndexNL t = -1 := by
  induction t with
  | nil => rfl
  | cons c rest ih =>
    have hc : ¬(c = '\n') := by
      intro hcc
      rw [countNL, List.countP_cons] at h
      simp [hcc] at h
    have hrest : countNL rest = 0 := by
      rw [countNL, List.countP_cons] at h
      simp only [hc, decide_eq_true_eq, if_false] at h
      simpa [countNL] using h
    simp [lastIndexNL, ih hrest, hc]

theorem countNL_cons (c : Char) (rest : List Char) :
    countNL (c :: rest) = countNL rest + if c = '\n' then 1 else 0 := by
  simp [countNL, List.countP_cons]

theorem lastIndexNL_nonneg (t : List Char) (h : countNL t ≠ 0) : 0 ≤ lastIndexNL t := by
  induction t with
  | nil => simp [countNL] at h
  | cons c rest ih =>
    by_cases hrest : countNL rest = 0
    · have hr := lastIndexNL_neg rest hrest
      have hc : c = '\n' := by
        by_contra hcc
        rw [countNL_cons, hrest, if_neg hcc] at h
        omega
      simp [lastIndexNL, hr, hc]
    · have := ih hrest
      simp only [lastIndexNL]
      split <;> omega

theorem lastIndexNL_append (s t : List Char) :
    lastIndexNL (s ++ t) =
      if 0 ≤ lastIndexNL t then (s.length : Int) + lastIndexNL t else lastIndexNL s := by
  induction s with
  | nil =>
    by_cases ht : 0 ≤ lastIndexNL t
    · simp [ht]
    · have h1 := lastIndexNL_ge_neg_one t
      simp only [List.nil_append, ht, if_false, lastIndexNL]
      omega
  | cons c s ih =>
    have hstep : lastIndexNL (c :: s ++ t) =
        if 0 ≤ lastIndexNL (s ++ t) then lastIndexNL (s ++ t) + 1
        else if c = '\n' then 0 else -1 := by
      rw [List.cons_append]
      simp [lastIndexNL]
    rw [hstep]
    by_cases ht : 0 ≤ lastIndexNL t
    · have key : lastIndexNL (s ++ t) = (s.length : Int) + lastIndexNL t := by
        rw [ih, if_pos ht]
      rw [key, if_pos (by omega : (0 : Int) ≤ (s.length : Int) + lastIndexNL t),
        if_pos ht]
      simp only [List.length_cons]
      push_cast
      ring
    · have key : lastIndexNL (s ++ t) = lastIndexNL s := by
        rw [ih, if_neg ht]
      rw [key, if_neg ht]
      rfl

/-- Claim C10: `Position.MoveForward` is a monoid homomorphism from string
concatenation to position advancement: advancing by `s` then by `t` equals
advancing by `s ++ t` in all three components, and advancing by the empty
string is the identity. -/
theorem Position_MoveForward_hom :
    (∀ (p : Position) (s t : List Char),
        (p.MoveForward s).MoveForward t = p.MoveForward (s ++ t)) ∧
      (∀ p : Position, p.MoveForward [] = p) := by
  constructor
  · intro p s t
    have hcount : countNL (s ++ t) = countNL s + countNL t := by
      simp [countNL, List.countP_append]
    simp only [Position.MoveForward, hcount, List.length_append, Position.mk.injEq]
    refine ⟨by push_cast; ring, by push_cast; ring, ?_⟩
    by_cases ht : countNL t = 0
    · have hlt := lastIndexNL_neg t ht
      by_cases hs : countNL s = 0
      · have hst : countNL s + countNL t = 0 := by omega
        rw [if_pos ht, if_pos hs, if_pos hst]
        push_cast
        ring
      · have hst : ¬(countNL s + countNL t = 0) := by omega
        have hna : ¬(0 ≤ lastIndexNL t) := by omega
        rw [if_pos ht, if_neg hs, if_neg hst, lastIndexNL_append, if_neg hna]
        push_cast
        omega
    · have hlt := lastIndexNL_nonneg t ht
      have hst : ¬(countNL s + countNL t = 0) := by omega
      rw [if_neg ht, if_neg hst, lastIndexNL_append, if_pos hlt]
      push_cast
      omega
  · intro p
    simp [Position.MoveForward, countNL]

/-! ### Escape round trip (claim C5) -/

theorem representable_ne_backslash (b : Nat) (h : representable b = true) : b ≠ 92 := by
  intro hb
  subst hb
  simp [representable, printableAscii] at h

theorem representable_printable (b : Nat) (h : representable b = true) :
    printableAscii b = true := by
  simp only [representable, Bool.and_eq_true] at h
  exact h.1

theorem representable_ne_quote (b : Nat) (h : representable b = true) : b ≠ 39 := by
  simp only [representable, Bool.and_eq_true, decide_eq_true_eq] at h
  simpa using h.2

theorem escapeRune_representable (b : Nat) (h : representable b = true) :
    escapeRune b = [b] := by
  simp [escapeRune, representable_printable b h]

/-- Claim C5: `SingleQuoteStringEscape` after `SingleQuoteStringUnescape`
is the identity on strings all of whose characters are representable
(printable ASCII without the single quote). -/
theorem escape_unescape_roundtrip (s : List Nat)
    (h : ∀ b ∈ s, representable b = true) :
    SingleQuoteStringEscape (SingleQuoteStringUnescape s) = s := by
  induction s with
  | nil => simp [SingleQuoteStringUnescape, SingleQuoteStringEscape]
  | cons b rest ih =>
    have hb := h b (List.mem_cons_self b rest)
    have hrest : ∀ x ∈ rest, representable x = true := fun x hx =>
      h x (List.mem_cons_of_mem b hx)
    have hb92 : ¬(b = 92) := representable_ne_backslash b hb
    have hstep : SingleQuoteStringUnescape (b :: rest) =
        b :: SingleQuoteStringUnescape rest := by
      rw [SingleQuoteStringUnescape.eq_def]
      simp [hb92]
    rw [hstep]
    have hb39 : ¬(b = 39) := representable_ne_quote b hb
    simp only [SingleQuoteStringEscape, List.map_cons, List.flatten_cons, hb39, if_false,
      escapeRune_representable b hb]
    simpa [SingleQuoteStringEscape] using ih hrest

/-- Witness for C5 at the concrete representable input `a<+`. -/
theorem escape_unescape_roundtrip_witness :
    (∀ b ∈ [97, 60, 43], representable b = true) ∧
      SingleQuoteStringEscape (SingleQuoteStringUnescape [97, 60, 43]) = [97, 60, 43] :=
  ⟨by decide, escape_unescape_roundtrip [97, 60, 43] (by decide)⟩

/-! ### Stage 1 sections (claim C6) -/

/-- Claim C6: `Stage1.run` succeeds, producing the six sections, exactly
when splitting the input on the 120-dash divider yields six parts; for any
other part count `n` it records the structural error `expected 6, got n`
and produces no sections. -/
theorem stage1_sections_iff (input : List Char) :
    ((∃ a b c d e f, stage1Run input = Stage1Out.ok a b c d e f) ↔
        (stringsSplit input sectionDivider).length = 6) ∧
      ((stringsSplit input sectionDivider).length ≠ 6 →
        stage1Run input = Stage1Out.err 6 (stringsSplit input sectionDivider).length) := by
  constructor
  · constructor
    · intro hok
      obtain ⟨a, b, c, d, e, f, hv⟩ := hok
      by_contra hne
      simp [stage1Run, hne] at hv
    · intro h6
      simp only [stage1Run, h6, dite_true]
      exact ⟨_, _, _, _, _, _, rfl⟩
  · intro hne
    simp [stage1Run, hne]

/-- Witness for C6: the empty input splits into one part, so Stage1 fails
with `expected 6, got 1`. -/
theorem stage1_sections_iff_witness : stage1Run [] = Stage1Out.err 6 1 := by
  have h := (stage1_sections_iff []).2 (by decide)
  simpa using h

/-! ### Memo id assignment (claim C7) -/

theorem alookup_none_append {β : Type} (l : List (Nat × β)) (k : Nat) (v : β)
    (h : alookup l k = none) : aset l k v = l ++ [(k, v)] := by
  induction l with
  | nil => rfl
  | cons p rest ih =>
    obtain ⟨pk, pv⟩ := p
    by_cases hk : pk = k
    · simp [alookup, hk] at h
    · simp only [alookup, hk, if_false] at h
      simp [aset, hk, ih h]

theorem alookup_not_mem {β : Type} (l : List (Nat × β)) (k : Nat)
    (h : k ∉ l.map Prod.fst) : alookup l k = none := by
  induction l with
  | nil => rfl
  | cons p rest ih =>
    obtain ⟨pk, pv⟩ := p
    simp only [List.map_cons, List.mem_cons] at h
    push_neg at h
    have : ¬(pk = k) := fun hc => h.1 hc.symm
    simp [alookup, this, ih h.2]

theorem countMemo_cons_true (r : GrammarRuleRef) (rest : List GrammarRuleRef)
    (hm : r.ruleMemo = true) : countMemo (r :: rest) = countMemo rest + 1 := by
  simp [countMemo, List.filter_cons, hm]

theorem countMemo_cons_false (r : GrammarRuleRef) (rest : List GrammarRuleRef)
    (hm : ¬r.ruleMemo = true) : countMemo (r :: rest) = countMemo rest := by
  simp [countMemo, List.filter_cons, hm]

theorem expectedMemoFrom_keys (rs : List GrammarRuleRef) (n : Nat) :
    (expectedMemoFrom n rs).map Prod.fst =
      (rs.filter (fun r => r.ruleMemo)).map GrammarRuleRef.id := by
  induction rs generalizing n with
  | nil => rfl
  | cons r rest ih =>
    by_cases hm : r.ruleMemo
    · simp [expectedMemoFrom, List.filter_cons, hm, ih]
    · simp [expectedMemoFrom, List.filter_cons, hm, ih]

theorem expectedMemoFrom_len (rs : List GrammarRuleRef) (n : Nat) :
    (expectedMemoFrom n rs).length = countMemo rs := by
  induction rs generalizing n with
  | nil => rfl
  | cons r rest ih =>
    by_cases hm : r.ruleMemo
    · rw [countMemo_cons_true r rest hm]
      simp only [expectedMemoFrom, hm, if_true, List.length_cons, ih]
    · rw [countMemo_cons_false r rest hm]
      simp [expectedMemoFrom, hm, ih]

theorem expectedMemoFrom_append (a b : List GrammarRuleRef) (n : Nat) :
    expectedMemoFrom n (a ++ b) =
      expectedMemoFrom n a ++ expectedMemoFrom (n + countMemo a) b := by
  induction a generalizing n with
  | nil => simp [expectedMemoFrom, countMemo]
  | cons r rest ih =>
    by_cases hm : r.ruleMemo
    · rw [countMemo_cons_true r rest hm]
      simp only [List.cons_append, expectedMemoFrom, hm, if_true, List.append_eq, ih,
        List.cons.injEq, true_and]
      have harith : n + 1 + countMemo rest = n + (countMemo rest + 1) := by omega
      rw [harith]
    · rw [countMemo_cons_false r rest hm]
      simp [expectedMemoFrom, hm, List.append_eq, ih]

theorem expectedMemoFrom_values (rs : List GrammarRuleRef) (n : Nat) :
    (expectedMemoFrom n rs).map Prod.snd = List.range' n (countMemo rs) := by
  induction rs generalizing n with
  | nil => rfl
  | cons r rest ih =>
    by_cases hm : r.ruleMemo
    · rw [countMemo_cons_true r rest hm]
      simp only [expectedMemoFrom, hm, if_true, List.map_cons, ih, List.range']
    · rw [countMemo_cons_false r rest hm]
      simp [expectedMemoFrom, hm, ih]

theorem buildLanguage_rules (rs : List GrammarRuleRef) :
    (buildLanguage rs).grammarRules = rs := by
  suffices hgen : ∀ lang : Language,
      (rs.foldl Language.AddGrammarRule lang).grammarRules = lang.grammarRules ++ rs by
    simpa [buildLanguage, NewLanguage] using hgen NewLanguage
  induction rs with
  | nil => simp
  | cons r rest ih =>
    intro lang
    simp [List.foldl_cons, ih, Language.AddGrammarRule]

theorem buildLanguage_memoIdMap (rs : List GrammarRuleRef)
    (h : (rs.map GrammarRuleRef.id).Nodup) :
    (buildLanguage rs).memoIdMap = expectedMemoFrom 0 rs := by
  induction rs using List.reverseRecOn with
  | nil => rfl
  | append_singleton l r ih =>
    have hl : (l.map GrammarRuleRef.id).Nodup := by
      simp only [List.map_append, List.nodup_append] at h
      exact h.1
    have hnotin : r.id ∉ l.map GrammarRuleRef.id := by
      simp only [List.map_append, List.nodup_append] at h
      intro hc
      exact h.2.2 hc (by simp)
    have hbuild : buildLanguage (l ++ [r]) =
        Language.AddGrammarRule (buildLanguage l) r := by
      simp [buildLanguage, List.foldl_append]
    rw [hbuild]
    by_cases hm : r.ruleMemo
    · have hkeys : r.id ∉ ((buildLanguage l).memoIdMap).map Prod.fst := by
        rw [ih hl, expectedMemoFrom_keys]
        intro hc
        apply hnotin
        simp only [List.mem_map] at hc ⊢
        obtain ⟨x, hx, hxid⟩ := hc
        exact ⟨x, List.mem_of_mem_filter hx, hxid⟩
      have hnone := alookup_not_mem _ _ hkeys
      rw [ih hl] at hnone
      have hmap : (Language.AddGrammarRule (buildLanguage l) r).memoIdMap =
          aset (buildLanguage l).memoIdMap r.id (buildLanguage l).memoIdMap.length := by
        simp [Language.AddGrammarRule, hm]
      rw [hmap, ih hl, expectedMemoFrom_len, alookup_none_append _ _ _ hnone,
        expectedMemoFrom_append]
      simp [expectedMemoFrom, hm]
    · have hmap : (Language.AddGrammarRule (buildLanguage l) r).memoIdMap =
          (buildLanguage l).memoIdMap := by
        simp [Language.AddGrammarRule, hm]
      rw [hmap, ih hl, expectedMemoFrom_append]
      simp [expectedMemoFrom, hm]

/-- Claim C7 (amended): after any sequence of `AddGrammarRule` calls adding
pairwise-distinct rules, the memo map is exactly one entry per memoized
rule in insertion order, the assigned ids are the dense range
`[0, count_of_memoized_rules)`, and the map built after any prefix of the
sequence persists unchanged as a prefix of the final map (ids are never
changed or reused). -/
theorem addGrammarRule_memo_dense (rs : List GrammarRuleRef)
    (h : (rs.map GrammarRuleRef.id).Nodup) :
    (buildLanguage rs).memoIdMap = expectedMemoFrom 0 rs ∧
      (buildLanguage rs).memoIdMap.map Prod.fst =
        ((buildLanguage rs).grammarRules.filter (fun r => r.ruleMemo)).map
          GrammarRuleRef.id ∧
      (buildLanguage rs).memoIdMap.map Prod.snd = List.range (countMemo rs) ∧
      ∀ l1 l2, rs = l1 ++ l2 →
        (buildLanguage rs).memoIdMap =
          (buildLanguage l1).memoIdMap ++ expectedMemoFrom (countMemo l1) l2 := by
  refine ⟨buildLanguage_memoIdMap rs h, ?_, ?_, ?_⟩
  · rw [buildLanguage_memoIdMap rs h, buildLanguage_rules rs, expectedMemoFrom_keys]
  · rw [buildLanguage_memoIdMap rs h, expectedMemoFrom_values, List.range_eq_range']
  · intro l1 l2 hsplit
    subst hsplit
    have hl1 : (l1.map GrammarRuleRef.id).Nodup := by
      simp only [List.map_append, List.nodup_append] at h
      exact h.1
    rw [buildLanguage_memoIdMap _ h, expectedMemoFrom_append,
      buildLanguage_memoIdMap l1 hl1]
    simp

/-- Witness for C7 at a concrete three-rule sequence (two memoized). -/
theorem addGrammarRule_memo_dense_witness :
    (buildLanguage [⟨0, true⟩, ⟨1, false⟩, ⟨2, true⟩]).memoIdMap = [(0, 0), (2, 1)] := by
  have h := (addGrammarRule_memo_dense [⟨0, true⟩, ⟨1, false⟩, ⟨2, true⟩] (by decide)).1
  rw [h]
  decide

/-! ### Leftmost-set classification (claim C2) -/

theorem mem_addKey (l : List String) (k a : String) : a ∈ addKey l k ↔ a ∈ l ∨ a = k := by
  by_cases hc : k ∈ l
  · have he : addKey l k = l := by simp [addKey, hc]
    rw [he]
    exact ⟨Or.inl, fun h => h.elim id (fun h => by rw [h]; exact hc)⟩
  · have he : addKey l k = l ++ [k] := by simp [addKey, hc]
    rw [he]
    simp [List.mem_append]

theorem mem_allNodes_self (n : GNode) : n ∈ allNodes n := by
  cases n
  simp [allNodes]

theorem mem_allNodesF_of_head (c : GNode) (t : GForest) (x : GNode)
    (hx : x ∈ allNodes c) : x ∈ allNodesF (.cons c t) := by
  simp [allNodesF, List.mem_append]
  exact Or.inl hx

theorem mem_allNodes_of_child_head (kind name snip sfx : String) (memo : Bool)
    (c : GNode) (t sep act : GForest) (x : GNode) (hx : x ∈ allNodes c) :
    x ∈ allNodes (.mk kind name snip sfx memo (.cons c t) sep act) := by
  simp only [allNodes, List.mem_cons, List.mem_append]
  exact Or.inr (Or.inl (mem_allNodesF_of_head c t x hx))

mutual
/-- Agreement between the source `gramLeftMost` (recording snippet text)
and the spec's leftmost set (recording the name): membership of `ruleName`
is the same, as is the continue flag, whenever every name atom in the tree
agrees about `ruleName` between its snippet and its name. -/
theorem leftmost_agree_node (n : GNode) (ruleName : String) (lm1 lm2 : List String)
    (hna : ∀ x ∈ allNodes n, x.kind = "name-atom" →
      (x.snippet = ruleName ↔ x.name = ruleName))
    (hmem : ruleName ∈ lm1 ↔ ruleName ∈ lm2) :
    ((ruleName ∈ (gramLeftMost n lm1).1 ↔ ruleName ∈ (leftmostSpec n lm2).1) ∧
      (gramLeftMost n lm1).2 = (leftmostSpec n lm2).2) := by
  cases n with
  | mk kind name snip sfx memo children sep act =>
    by_cases hch : kind = "choice"
    · subst hch
      have hf := leftmost_agree_forest children ruleName lm1 lm2
        (fun x hx => hna x (by
          simp only [allNodes, List.mem_cons, List.mem_append]
          exact Or.inr (Or.inl hx))) hmem
      constructor
      · rw [gramLeftMost.eq_def, leftmostSpec.eq_def]
        simpa using hf
      · rw [gramLeftMost.eq_def, leftmostSpec.eq_def]
        simp
    · by_cases hopt : kind = "optional-item" ∨ kind = "repeat-0-item" ∨
          kind = "separated-repeat-0-item" ∨ kind = "negative-lookahead-item"
      · obtain h | h | h | h := hopt <;> subst h <;>
          (cases children with
           | nil =>
             constructor
             · rw [gramLeftMost.eq_def, leftmostSpec.eq_def]
               simpa using hmem
             · rw [gramLeftMost.eq_def, leftmostSpec.eq_def]
               simp
           | cons c t =>
             constructor
             · rw [gramLeftMost.eq_def, leftmostSpec.eq_def]
               simpa using
                 (leftmost_agree_node c ruleName lm1 lm2
                   (fun x hx hk =>
                     hna x (mem_allNodes_of_child_head _ _ _ _ _ c t _ _ x hx) hk)
                   hmem).1
             · rw [gramLeftMost.eq_def, leftmostSpec.eq_def]
               simp)
      · by_cases hrep : kind = "repeat-1-item" ∨ kind = "atom-item" ∨
            kind = "separated-repeat-1-item" ∨ kind = "positive-lookahead-item"
        · obtain h | h | h | h := hrep <;> subst h <;>
            (cases children with
             | nil =>
               constructor
               · rw [gramLeftMost.eq_def, leftmostSpec.eq_def]
                 simpa using hmem
               · rw [gramLeftMost.eq_def, leftmostSpec.eq_def]
                 simp
             | cons c t =>
               constructor
               · rw [gramLeftMost.eq_def, leftmostSpec.eq_def]
                 simpa using
                   (leftmost_agree_node c ruleName lm1 lm2
                     (fun x hx hk =>
                       hna x (mem_allNodes_of_child_head _ _ _ _ _ c t _ _ x hx) hk)
                     hmem).1
               · rw [gramLeftMost.eq_def, leftmostSpec.eq_def]
                 simp)
        · by_cases hname : kind = "name-atom"
          · subst hname
            have hself := hna _ (mem_allNodes_self
              (.mk "name-atom" name snip sfx memo children sep act)) rfl
            simp only [GNode.snippet, GNode.name] at hself
            have e1 : (gramLeftMost (.mk "name-atom" name snip sfx memo children sep act)
                lm1).1 = addKey lm1 snip := by
              rw [gramLeftMost.eq_def]
              simp
            have e2 : (leftmostSpec (.mk "name-atom" name snip sfx memo children sep act)
                lm2).1 = addKey lm2 name := by
              rw [leftmostSpec.eq_def]
              simp
            constructor
            · rw [e1, e2, mem_addKey, mem_addKey]
              constructor
              · rintro (h | h)
                · exact Or.inl (hmem.mp h)
                · exact Or.inr (hself.mp h.symm).symm
              · rintro (h | h)
                · exact Or.inl (hmem.mpr h)
                · exact Or.inr (hself.mpr h.symm).symm
            · rw [gramLeftMost.eq_def, leftmostSpec.eq_def]
              simp
          · push_neg at hopt hrep
            obtain ⟨h2, h3, h4, h5⟩ := hopt
            obtain ⟨h6, h7, h8, h9⟩ := hrep
            constructor
            · rw [gramLeftMost.eq_def, leftmostSpec.eq_def]
              simpa [hch, h2, h3, h4, h5, h6, h7, h8, h9, hname] using hmem
            · rw [gramLeftMost.eq_def, leftmostSpec.eq_def]
              simp [hch, h2, h3, h4, h5, h6, h7, h8, h9, hname]
termination_by gsizeN n
decreasing_by all_goals (subst_vars; simp only [gsizeN, gsizeF]; omega)
theorem leftmost_agree_forest (f : GForest) (ruleName : String) (lm1 lm2 : List String)
    (hna : ∀ x ∈ allNodesF f, x.kind = "name-atom" →
      (x.snippet = ruleName ↔ x.name = ruleName))
    (hmem : ruleName ∈ lm1 ↔ ruleName ∈ lm2) :
    (ruleName ∈ gramLeftMostItems f lm1 ↔ ruleName ∈ leftmostSpecItems f lm2) := by
  cases f with
  | nil =>
    rw [gramLeftMostItems.eq_def, leftmostSpecItems.eq_def]
    simpa using hmem
  | cons item rest =>
    have hitem := leftmost_agree_node item ruleName lm1 lm2
      (fun x hx hk => hna x (mem_allNodesF_of_head item rest x hx) hk) hmem
    rcases hp1 : gramLeftMost item lm1 with ⟨l1, c1⟩
    rcases hp2 : leftmostSpec item lm2 with ⟨l2, c2⟩
    rw [hp1, hp2] at hitem
    dsimp only at hitem
    obtain ⟨hm, hcflag⟩ := hitem
    subst hcflag
    rw [gramLeftMostItems.eq_def, leftmostSpecItems.eq_def]
    simp only [hp1, hp2]
    cases c1 with
    | false =>
      rw [if_neg (by simp), if_neg (by simp)]
      exact hm
    | true =>
      rw [if_pos rfl, if_pos rfl]
      exact leftmost_agree_forest rest ruleName l1 l2
        (fun x hx hk => hna x (by
          simp only [allNodesF, List.mem_append]
          exact Or.inr hx) hk) hm
termination_by gsizeF f
decreasing_by all_goals (subst_vars; simp only [gsizeN, gsizeF]; omega)
end

/-- Claim C2: a choice is classified left-recursive by
`genGrammarRuleCode` exactly when the rule's name lies in the leftmost set
of section 4.2 (descending leftmost items, continuing past the
can-match-empty item kinds, descending into and stopping at the others,
recording the name of a reached `NameAtom`) — provided every name atom of
the choice agrees about the rule name between snippet text (what the code
records) and name attribute (what the spec records), which holds for all
pipeline trees: parsed name atoms satisfy name = snippet text, and hoisted
`_group_N` atoms have neither equal to any rule name. -/
theorem gram_leftrec_classification (ruleName : String) (c : GNode)
    (hna : ∀ x ∈ allNodes c, x.kind = "name-atom" →
      (x.snippet = ruleName ↔ x.name = ruleName)) :
    (choiceIsLeftRec ruleName c = true ↔ ruleName ∈ (leftmostSpec c []).1) := by
  have h := (leftmost_agree_node c ruleName [] [] hna (by simp)).1
  have hcm : ((gramLeftMost c []).1.contains ruleName = true) ↔
      ruleName ∈ (gramLeftMost c []).1 := List.elem_iff
  simp only [choiceIsLeftRec]
  exact hcm.trans h

/-- Witness for C2 at the concrete left-recursive choice `expr '+'` of
rule `expr`. -/
theorem gram_leftrec_classification_witness :
    "expr" ∈ (leftmostSpec cexLeftRecChoice []).1 :=
  (gram_leftrec_classification "expr" cexLeftRecChoice (by decide)).mp (by decide)

/-- Counterexample for C7 as stated: adding the same memoized rule object
twice reassigns its id (`memoIdMap[rule] = len(memoIdMap)` overwrites),
so after the second call the single entry carries id 1, outside the dense
range `[0, 1)` — the id is changed rather than kept. -/
theorem addGrammarRule_memo_cex :
    (Language.AddGrammarRule NewLanguage ⟨0, true⟩).memoIdMap = [(0, 0)] ∧
      (Language.AddGrammarRule (Language.AddGrammarRule NewLanguage ⟨0, true⟩)
          ⟨0, true⟩).memoIdMap = [(0, 1)] := by
  decide

/-! ### The `(memo)` wrapper (claim C3) -/

/-- Claim C3: for a `(memo)` rule the generator emits a public wrapper
whose behaviour is: on a cache hit in `_nodeCache[pos][memoId]` with a nil
value return nil; on a hit with a node reset to the cached end position
and return it; on a miss (whether or not the per-position map exists) call
the real body (rule name suffixed with `_`), store `(result, position
after the body)` into the cache slot, and return the result — and the
emitted text for rule `expr` is exactly the 22-line wrapper calling
`ps.expr_()`. -/
theorem memo_wrapper_behavior {α : Type} (memoId : Nat)
    (body : ParserMemoState α → Option α × ParserMemoState α)
    (ps : ParserMemoState α) :
    (∀ cacheAtPos (v : α) cpos, alookup ps.nodeCache ps.pos = some cacheAtPos →
        alookup cacheAtPos memoId = some (some v, cpos) →
        memoWrapperSem memoId body ps = (some v, { ps with pos := cpos })) ∧
      (∀ cacheAtPos cpos, alookup ps.nodeCache ps.pos = some cacheAtPos →
        alookup cacheAtPos memoId = some (none, cpos) →
        memoWrapperSem memoId body ps = (none, ps)) ∧
      (∀ cacheAtPos, alookup ps.nodeCache ps.pos = some cacheAtPos →
        alookup cacheAtPos memoId = none →
        memoWrapperSem memoId body ps =
          ((body ps).1, { (body ps).2 with
            nodeCache := cacheInsert (body ps).2.nodeCache ps.pos memoId
              ((body ps).1, (body ps).2.pos) })) ∧
      (alookup ps.nodeCache ps.pos = none →
        memoWrapperSem memoId body ps =
          ((body { ps with nodeCache := aset ps.nodeCache ps.pos [] }).1,
           { (body { ps with nodeCache := aset ps.nodeCache ps.pos [] }).2 with
             nodeCache := cacheInsert
               (body { ps with nodeCache := aset ps.nodeCache ps.pos [] }).2.nodeCache
               ps.pos memoId
               ((body { ps with nodeCache := aset ps.nodeCache ps.pos [] }).1,
                (body { ps with nodeCache := aset ps.nodeCache ps.pos [] }).2.pos) })) ∧
      (gramMemoCode newGen "expr").lines =
        ["func (ps *Parser) expr() Node \x7b",
         "\tpos := ps._mark()",
         "\tvar ok bool",
         "\tvar cache *NodeCache",
         "\tcacheAtPos := ps._nodeCache[pos]",
         "\tif cacheAtPos != nil \x7b",
         "\t\tif cache, ok = cacheAtPos[exprMemoId]; ok \x7b",
         "\t\t\tif cache.val == nil \x7b",
         "\t\t\t\treturn nil",
         "\t\t\t\x7d",
         "\t\t\tps._reset(cache.pos)",
         "\t\t\treturn cache.val",
         "\t\t\x7d",
         "\t\x7d else \x7b",
         "\t\tcacheAtPos = make(map[int]*NodeCache)",
         "\t\tps._nodeCache[pos] = cacheAtPos",
         "\t\x7d",
         "\tt := ps.expr_()",
         "\tcacheAtPos[exprMemoId] = &NodeCache\x7bt, ps._mark()\x7d",
         "\treturn t",
         "\x7d",
         ""] := by
  refine ⟨?_, ?_, ?_, ?_, by decide⟩
  · intro cap v cpos h1 h2
    simp [memoWrapperSem, h1, h2]
  · intro cap cpos h1 h2
    simp [memoWrapperSem, h1, h2]
  · intro cap h1 h2
    rcases hb : body ps with ⟨t, ps1⟩
    simp [memoWrapperSem, h1, h2, hb]
  · intro h1
    rcases hb : body { ps with nodeCache := aset ps.nodeCache ps.pos [] } with ⟨t, ps1⟩
    simp [memoWrapperSem, h1, hb]

/-- Witness for C3: the four wrapper behaviours at concrete caches over
`α := Nat` (hit with node, hit with nil, miss in an existing per-position
map, miss with no per-position map). -/
theorem memo_wrapper_behavior_witness :
    memoWrapperSem 5 (fun s => (some 9, s))
        (⟨0, [(0, [(5, (some 7, 3))])]⟩ : ParserMemoState Nat) =
      (some 7, ⟨3, [(0, [(5, (some 7, 3))])]⟩) ∧
    memoWrapperSem 5 (fun s => (some 9, s))
        (⟨0, [(0, [(5, (none, 3))])]⟩ : ParserMemoState Nat) =
      (none, ⟨0, [(0, [(5, (none, 3))])]⟩) ∧
    memoWrapperSem 5 (fun s => (some 9, s))
        (⟨0, [(0, ([] : List (Nat × (Option Nat × Nat))))]⟩ : ParserMemoState Nat) =
      (some 9, ⟨0, [(0, [(5, (some 9, 0))])]⟩) ∧
    memoWrapperSem 5 (fun s => (some 9, s)) (⟨1, []⟩ : ParserMemoState Nat) =
      (some 9, ⟨1, [(1, [(5, (some 9, 1))])]⟩) :=
  ⟨(memo_wrapper_behavior 5 _ _).1 [(5, (some 7, 3))] 7 3 (by decide) (by decide),
   (memo_wrapper_behavior 5 _ _).2.1 [(5, (none, 3))] 3 (by decide) (by decide),
   (memo_wrapper_behavior 5 _ _).2.2.1 [] (by decide) (by decide),
   (memo_wrapper_behavior 5 _ _).2.2.2.1 (by decide)⟩

/-! ### AST node constructors (claim C4) -/

/-- Claim C4 (code bug): for the declared AST node `binary <x op y>` the
constructor emitted by `Stage33` takes `(filePath, fileContent, x, op, y,
start, end)` and substitutes `dummyNode` for nil node arguments, but no
emitted line mentions `creationHook` — the emitter returns the struct
literal directly, never invoking the creation hook the claim (and the
checked-in generated parser) require. -/
theorem node_constructor_no_creation_hook :
    ((nodeConstructorCode newGen (NewAstNode "binary" ["x", "op", "y"])).lines.all
        (fun l => !(strContainsSub l "creationHook")) = true) ∧
      ("func NewBinaryNode(filePath string, fileContent []rune, x Node, op Node, y Node, start, end Position) Node \x7b" ∈
        (nodeConstructorCode newGen (NewAstNode "binary" ["x", "op", "y"])).lines) ∧
      ("\tif x == nil \x7b" ∈
        (nodeConstructorCode newGen (NewAstNode "binary" ["x", "op", "y"])).lines) ∧
      ("\t\tx = dummyNode" ∈
        (nodeConstructorCode newGen (NewAstNode "binary" ["x", "op", "y"])).lines) := by
  decide

/-! ### Fully left-recursive rules (claim C9) -/

theorem str_ne_empty_of_len (s : String) (h : 0 < s.length) : s ≠ "" := by
  intro hc
  rw [hc] at h
  simp at h

/-- Claim C9: when every choice of a rule is classified left-recursive,
the simple-choice bucket of `genGrammarRuleCode` is empty, the emitted
`<camel>LeftMost()` function is exactly header / `return nil` / `}` /
blank (no choice code), and the public-function semantics
(`_left := LeftMost(); if _left == nil return nil; ...`) returns nil
without running any `RightPart` iteration. -/
theorem leftrec_all_choices_nil (L : LangMaps) (rule : GNode)
    (h : ∀ c ∈ rule.children.toList, choiceIsLeftRec rule.name c = true) :
    (genGrammarRulePartition rule).2 = [] ∧
      (∀ (camelName : String) (g : Gen), g.ind = 0 →
        (gramLeftMostFun L g camelName []).lines =
          g.lines ++ ["func (ps *Parser) " ++ camelName ++ "LeftMost() Node \x7b",
            "\treturn nil", "\x7d", ""]) ∧
      (∀ (σ α : Type) (fuel : Nat) (rp : α → σ → Option α × σ)
          (lm : σ → Option α × σ) (s : σ), (lm s).1 = none →
        pubRuleSem fuel lm rp s = (none, (lm s).2)) := by
  refine ⟨?_, ?_, ?_⟩
  · simp only [genGrammarRulePartition]
    rw [List.filter_eq_nil_iff]
    intro c hc
    simp [h c hc]
  · intro camelName g hind
    have hne : ("func (ps *Parser) " ++ camelName ++ "LeftMost() Node \x7b") ≠ "" := by
      apply str_ne_empty_of_len
      rw [String.length_append, String.length_append]
      have h19 : ("func (ps *Parser) " : String).length = 18 := by decide
      rw [h19]
      omega
    simp [gramLeftMostFun, gramChoicesCode, gramChoicesGo, Gen.put, Gen.push, Gen.pop,
      Gen.putNL, hind, tabs, hne]
  · intro σ α fuel rp lm s hnone
    rcases hl : lm s with ⟨v, s1⟩
    rw [hl] at hnone
    dsimp only at hnone
    subst hnone
    simp [pubRuleSem, hl]

/-- Witness for C9 at the concrete rule `expr: | expr '+'` whose only
choice is left-recursive, with camel name `expr` on a fresh generator, and
a concrete nil-returning LeftMost semantics. -/
theorem leftrec_all_choices_nil_witness :
    (genGrammarRulePartition cexLeftRecRule).2 = [] ∧
      (gramLeftMostFun ⟨[], []⟩ newGen "expr" []).lines =
        newGen.lines ++ ["func (ps *Parser) " ++ "expr" ++ "LeftMost() Node \x7b",
          "\treturn nil", "\x7d", ""] ∧
      pubRuleSem 3 (fun s : Nat => (none, s))
          (fun (a : Nat) (s : Nat) => (some a, s)) 0 =
        (none, ((fun s : Nat => ((none : Option Nat), s)) 0).2) := by
  have h := leftrec_all_choices_nil ⟨[], []⟩ cexLeftRecRule (by decide)
  exact ⟨h.1, h.2.1 "expr" newGen rfl, h.2.2 Nat Nat 3 _ _ 0 rfl⟩

/-! ### The Stage 2 group rewrite (claim C1) -/

theorem wfN_mk (k nm s1 s2 : String) (m : Bool) (ch sep act : GForest) :
    wfN (.mk k nm s1 s2 m ch sep act) =
      ((if k = "group-atom" then forestAll (fun c => c.kind = "choice") ch
        else if k = "choice" then forestAll (fun c => c.kind ≠ "choice") ch
        else true)
       && (k = "choice" || act.isNil)
       && wfF ch && wfF sep) := by
  rw [wfN.eq_def]

theorem wfF_nil : wfF .nil = true := by
  rw [wfF.eq_def]

theorem wfF_cons (h : GNode) (t : GForest) :
    wfF (.cons h t) = (wfN h && wfF t) := by
  rw [wfF.eq_def]

theorem goodN_mk (k nm s1 s2 : String) (m : Bool) (ch sep act : GForest) :
    goodN (.mk k nm s1 s2 m ch sep act) =
      ((k ≠ "group-atom" || forestAll itemOk ch) && goodF ch && goodF sep) := by
  rw [goodN.eq_def]

theorem goodF_nil : goodF .nil = true := by
  rw [goodF.eq_def]

theorem goodF_cons (h : GNode) (t : GForest) :
    goodF (.cons h t) = (goodN h && goodF t) := by
  rw [goodF.eq_def]

theorem all_set {α : Type} (p : α → Bool) (l : List α) (i : Nat) (x : α)
    (hl : l.all p = true) (hx : p x = true) : (l.set i x).all p = true := by
  rw [List.all_eq_true] at hl ⊢
  intro y hy
  rcases List.mem_or_eq_of_mem_set hy with h | h
  · exact hl y h
  · subst h
    exact hx

/-- Well-formed forests of non-choice nodes consist of `itemOk` nodes:
non-choice well-formed nodes carry no action. -/
theorem wf_items_ok (f : GForest) (h1 : wfF f = true)
    (h2 : forestAll (fun c => c.kind ≠ "choice") f = true) :
    forestAll itemOk f = true := by
  cases f with
  | nil => rfl
  | cons nd t =>
    rw [wfF_cons, Bool.and_eq_true] at h1
    simp only [forestAll, Bool.and_eq_true] at h2 ⊢
    obtain ⟨hn, ht⟩ := h1
    obtain ⟨hx, hxs⟩ := h2
    refine ⟨?_, wf_items_ok t ht hxs⟩
    cases nd with
    | mk k nm s1 s2 m ch sep act =>
      simp only [wfN_mk, Bool.and_eq_true, Bool.or_eq_true, decide_eq_true_eq] at hn
      simp only [GNode.kind, decide_eq_true_eq] at hx
      simp only [itemOk, GNode.kind, GNode.action, Bool.and_eq_true, decide_eq_true_eq]
      exact ⟨hx, hn.1.1.2.resolve_left hx⟩
termination_by gsizeF f
decreasing_by all_goals (subst_vars; simp only [gsizeN, gsizeF]; omega)

theorem convertForest_nil (st : ConvSt) : convertForest st .nil = (st, .nil) := by
  rw [convertForest.eq_def]

theorem convertForest_cons (st : ConvSt) (h : GNode) (t : GForest) :
    convertForest st (.cons h t) =
      ((convertForest (convertNode st h).1 t).1,
       .cons (convertNode st h).2 (convertForest (convertNode st h).1 t).2) := by
  rcases h1 : convertNode st h with ⟨st1, h'⟩
  rcases h2 : convertForest st1 t with ⟨st2, t'⟩
  rw [convertForest.eq_def]
  simp [h1, h2]

theorem convertNode_flatten (st : ConvSt) (name snip sfx : String) (memo : Bool)
    (ck cn cs cf : String) (cm : Bool) (cItems csep : GForest) (sep act : GForest) :
    convertNode st (.mk "group-atom" name snip sfx memo
        (.cons (.mk ck cn cs cf cm cItems csep .nil) .nil) sep act) =
      ((convertForest (convertForest st cItems).1 sep).1,
       .mk "group-atom" name snip sfx memo (convertForest st cItems).2
         (convertForest (convertForest st cItems).1 sep).2 act) := by
  rcases h1 : convertForest st cItems with ⟨st1, items'⟩
  rcases h2 : convertForest st1 sep with ⟨st2, sep'⟩
  rw [convertNode.eq_def]
  simp [GNode.kind, GNode.children, GNode.separator, GNode.action, GNode.name,
    GNode.snippet, GNode.suffix, GNode.ruleMemo, h1, h2]

theorem convertNode_group_nil (st : ConvSt) (name snip sfx : String) (memo : Bool)
    (sep act : GForest) :
    convertNode st (.mk "group-atom" name snip sfx memo .nil sep act) =
      hoistRes st .nil sep name snip sfx memo act := by
  rw [convertNode.eq_def]
  simp [hoistRes, GNode.kind, GNode.children, GNode.separator, GNode.action,
    GNode.name, GNode.snippet, GNode.suffix, GNode.ruleMemo]

theorem convertNode_group_two (st : ConvSt) (name snip sfx : String) (memo : Bool)
    (c0 r1 : GNode) (r2 : GForest) (sep act : GForest) :
    convertNode st (.mk "group-atom" name snip sfx memo
        (.cons c0 (.cons r1 r2)) sep act) =
      hoistRes st (.cons c0 (.cons r1 r2)) sep name snip sfx memo act := by
  cases c0 with
  | mk k0 n0 s0 f0 m0 ch0 sep0 act0 =>
    rw [convertNode.eq_def]
    cases act0 <;>
      simp [hoistRes, GNode.kind, GNode.children, GNode.separator, GNode.action,
        GNode.name, GNode.snippet, GNode.suffix, GNode.ruleMemo]

theorem convertNode_group_act (st : ConvSt) (name snip sfx : String) (memo : Bool)
    (ck cn cs cf : String) (cm : Bool) (cItems csep : GForest) (a1 : GNode)
    (a2 : GForest) (sep act : GForest) :
    convertNode st (.mk "group-atom" name snip sfx memo
        (.cons (.mk ck cn cs cf cm cItems csep (.cons a1 a2)) .nil) sep act) =
      hoistRes st (.cons (.mk ck cn cs cf cm cItems csep (.cons a1 a2)) .nil) sep
        name snip sfx memo act := by
  rw [convertNode.eq_def]
  simp [hoistRes, GNode.kind, GNode.children, GNode.separator, GNode.action,
    GNode.name, GNode.snippet, GNode.suffix, GNode.ruleMemo]

theorem convertNode_default (st : ConvSt) (kind name snip sfx : String) (memo : Bool)
    (children sep act : GForest) (hk : ¬kind = "group-atom") :
    convertNode st (.mk kind name snip sfx memo children sep act) =
      ((convertForest (convertForest st children).1 sep).1,
       .mk kind name snip sfx memo (convertForest st children).2
         (convertForest (convertForest st children).1 sep).2 act) := by
  rcases h1 : convertForest st children with ⟨st1, ch'⟩
  rcases h2 : convertForest st1 sep with ⟨st2, sep'⟩
  rw [convertNode.eq_def]
  simp [GNode.kind, GNode.children, GNode.separator, GNode.action, GNode.name,
    GNode.snippet, GNode.suffix, GNode.ruleMemo, h1, h2, hk]

/-- Goodness of the hoisting arms, given the conversion of the group's
choices and of the separator preserve goodness of the synthetic-rule
state. -/
theorem hoist_good (st : ConvSt) (nch nsep : GForest) (name snip sfx : String)
    (memo : Bool) (act : GForest)
    (hinv : st.newRules.all goodN = true)
    (IHch : ∀ st' : ConvSt, st'.newRules.all goodN = true →
      goodF (convertForest st' nch).2 = true ∧
        (convertForest st' nch).1.newRules.all goodN = true)
    (IHsep : ∀ st' : ConvSt, st'.newRules.all goodN = true →
      goodF (convertForest st' nsep).2 = true ∧
        (convertForest st' nsep).1.newRules.all goodN = true) :
    goodN (hoistRes st nch nsep name snip sfx memo act).2 = true ∧
      (hoistRes st nch nsep name snip sfx memo act).1.newRules.all goodN = true ∧
      (hoistRes st nch nsep name snip sfx memo act).2.action = act ∧
      (hoistRes st nch nsep name snip sfx memo act).2.kind = "name-atom" := by
  rcases hs : slookup st.newRuleKeys snip with _ | nm
  · have hplace : goodN (GNode.mk "rule"
        ("_group_" ++ toString (st.newRuleKeys.length + 1)) snip "" false
        .nil .nil .nil) = true := by
      rw [goodN_mk]
      simp [goodF_nil]
    have hinv1 : ((st.newRules ++ [GNode.mk "rule"
        ("_group_" ++ toString (st.newRuleKeys.length + 1)) snip "" false
        .nil .nil .nil]).all goodN) = true := by
      rw [List.all_append]
      simp [hinv, hplace]
    obtain ⟨hg1, hi1⟩ := IHch ⟨st.newRuleKeys ++
        [(snip, "_group_" ++ toString (st.newRuleKeys.length + 1))],
      st.newRules ++ [GNode.mk "rule"
        ("_group_" ++ toString (st.newRuleKeys.length + 1)) snip "" false
        .nil .nil .nil]⟩ hinv1
    rcases h1 : convertForest ⟨st.newRuleKeys ++
        [(snip, "_group_" ++ toString (st.newRuleKeys.length + 1))],
      st.newRules ++ [GNode.mk "rule"
        ("_group_" ++ toString (st.newRuleKeys.length + 1)) snip "" false
        .nil .nil .nil]⟩ nch with ⟨stA, choices'⟩
    rw [h1] at hg1 hi1
    dsimp only at hg1 hi1
    obtain ⟨hg2, hi2⟩ := IHsep stA hi1
    rcases h2 : convertForest stA nsep with ⟨stB, sep'⟩
    rw [h2] at hg2 hi2
    dsimp only at hg2 hi2
    have hrule : goodN (GNode.mk "rule"
        ("_group_" ++ toString (st.newRuleKeys.length + 1)) snip "" false
        choices' .nil .nil) = true := by
      rw [goodN_mk]
      simp [goodF_nil, hg1]
    have hres : hoistRes st nch nsep name snip sfx memo act =
        (⟨stB.newRuleKeys, stB.newRules.set st.newRules.length
            (GNode.mk "rule" ("_group_" ++ toString (st.newRuleKeys.length + 1))
              snip "" false choices' .nil .nil)⟩,
         .mk "name-atom" ("_group_" ++ toString (st.newRuleKeys.length + 1))
           snip sfx memo .nil sep' act) := by
      simp [hoistRes, hs, h1, h2]
    rw [hres]
    refine ⟨?_, ?_, rfl, rfl⟩
    · rw [goodN_mk]
      simp [goodF_nil, hg2]
    · dsimp only
      exact all_set goodN _ _ _ hi2 hrule
  · obtain ⟨hg1, hi1⟩ := IHch st hinv
    rcases h1 : convertForest st nch with ⟨stA, x⟩
    rw [h1] at hg1 hi1
    dsimp only at hg1 hi1
    obtain ⟨hg2, hi2⟩ := IHsep stA hi1
    rcases h2 : convertForest stA nsep with ⟨stB, sep'⟩
    rw [h2] at hg2 hi2
    dsimp only at hg2 hi2
    have hres : hoistRes st nch nsep name snip sfx memo act =
        (stB, .mk "name-atom" nm snip sfx memo .nil sep' act) := by
      simp [hoistRes, hs, h1, h2]
    rw [hres]
    refine ⟨?_, hi2, rfl, rfl⟩
    rw [goodN_mk]
    simp [goodF_nil, hg2]

mutual
/-- Node case of the C1 invariant: converting a well-formed node yields a
node with no bad group anywhere, preserves goodness of the accumulated
synthetic rules, preserves the action, and preserves being/not being a
`Choice`. -/
theorem conv_goodN (st : ConvSt) (n : GNode)
    (hwf : wfN n = true) (hinv : st.newRules.all goodN = true) :
    goodN (convertNode st n).2 = true ∧
      (convertNode st n).1.newRules.all goodN = true ∧
      (convertNode st n).2.action = n.action ∧
      ((convertNode st n).2.kind = "choice" ↔ n.kind = "choice") := by
  cases n with
  | mk kind name snip sfx memo children sep act =>
    rw [wfN_mk] at hwf
    simp only [Bool.and_eq_true] at hwf
    obtain ⟨⟨⟨hif, hact⟩, hwfc⟩, hwfs⟩ := hwf
    by_cases hk : kind = "group-atom"
    · subst hk
      rw [if_pos rfl] at hif
      cases children with
      | nil =>
        rw [convertNode_group_nil]
        have hh := hoist_good st .nil sep name snip sfx memo act hinv
          (fun st' h' => ⟨(conv_goodF st' .nil wfF_nil h').1,
            (conv_goodF st' .nil wfF_nil h').2.1⟩)
          (fun st' h' => ⟨(conv_goodF st' sep hwfs h').1,
            (conv_goodF st' sep hwfs h').2.1⟩)
        refine ⟨hh.1, hh.2.1, ?_, ?_⟩
        · simpa [GNode.action] using hh.2.2.1
        · rw [hh.2.2.2]
          simp [GNode.kind]
      | cons c0 rest =>
        cases rest with
        | cons r1 r2 =>
          rw [convertNode_group_two]
          have hh := hoist_good st (.cons c0 (.cons r1 r2)) sep
            name snip sfx memo act hinv
            (fun st' h' => ⟨(conv_goodF st' _ hwfc h').1,
              (conv_goodF st' _ hwfc h').2.1⟩)
            (fun st' h' => ⟨(conv_goodF st' sep hwfs h').1,
              (conv_goodF st' sep hwfs h').2.1⟩)
          refine ⟨hh.1, hh.2.1, ?_, ?_⟩
          · simpa [GNode.action] using hh.2.2.1
          · rw [hh.2.2.2]
            simp [GNode.kind]
        | nil =>
          cases c0 with
          | mk ck cn cs cf cm cItems csep cact =>
            cases cact with
            | cons a1 a2 =>
              rw [convertNode_group_act]
              have hh := hoist_good st
                (.cons (.mk ck cn cs cf cm cItems csep (.cons a1 a2)) .nil) sep
                name snip sfx memo act hinv
                (fun st' h' => ⟨(conv_goodF st' _ hwfc h').1,
                  (conv_goodF st' _ hwfc h').2.1⟩)
                (fun st' h' => ⟨(conv_goodF st' sep hwfs h').1,
                  (conv_goodF st' sep hwfs h').2.1⟩)
              refine ⟨hh.1, hh.2.1, ?_, ?_⟩
              · simpa [GNode.action] using hh.2.2.1
              · rw [hh.2.2.2]
                simp [GNode.kind]
            | nil =>
              have hck : ck = "choice" := by
                simp only [forestAll, GNode.kind, Bool.and_eq_true,
                  decide_eq_true_eq] at hif
                exact hif.1
              subst hck
              rw [wfF_cons, Bool.and_eq_true] at hwfc
              obtain ⟨hwfc0, _⟩ := hwfc
              rw [wfN_mk] at hwfc0
              simp only [Bool.and_eq_true] at hwfc0
              obtain ⟨⟨⟨hin, _⟩, hwfI⟩, hwfCS⟩ := hwfc0
              have hin2 : forestAll (fun c => c.kind ≠ "choice") cItems = true := by
                simpa using hin
              rw [convertNode_flatten]
              have ihI := conv_goodF st cItems hwfI hinv
              rcases h1 : convertForest st cItems with ⟨stA, items'⟩
              rw [h1] at ihI
              dsimp only at ihI
              have ihS := conv_goodF stA sep hwfs ihI.2.1
              rcases h2 : convertForest stA sep with ⟨stB, sep'⟩
              rw [h2] at ihS
              dsimp only at ihS
              dsimp only
              have hok : forestAll itemOk items' = true :=
                ihI.2.2 (wf_items_ok cItems hwfI hin2)
              refine ⟨?_, ihS.2.1, rfl, by simp [GNode.kind]⟩
              rw [goodN_mk]
              simp [ihI.1, ihS.1, hok]
    · rw [convertNode_default st kind name snip sfx memo children sep act hk]
      have ih1 := conv_goodF st children hwfc hinv
      rcases h1 : convertForest st children with ⟨stA, ch'⟩
      rw [h1] at ih1
      dsimp only at ih1
      have ih2 := conv_goodF stA sep hwfs ih1.2.1
      rcases h2 : convertForest stA sep with ⟨stB, sep'⟩
      rw [h2] at ih2
      dsimp only at ih2
      dsimp only
      refine ⟨?_, ih2.2.1, rfl, by simp [GNode.kind]⟩
      rw [goodN_mk]
      simp [hk, ih1.1, ih2.1]
termination_by (gsizeN n, 1)
decreasing_by all_goals (subst_vars; simp only [gsizeN, gsizeF]; omega)
/-- Forest case of the C1 invariant, with the pointwise `itemOk`
preservation used for the flattened group's new children. -/
theorem conv_goodF (st : ConvSt) (f : GForest)
    (hwf : wfF f = true) (hinv : st.newRules.all goodN = true) :
    goodF (convertForest st f).2 = true ∧
      (convertForest st f).1.newRules.all goodN = true ∧
      (forestAll itemOk f = true → forestAll itemOk (convertForest st f).2 = true) := by
  cases f with
  | nil =>
    rw [convertForest_nil]
    exact ⟨goodF_nil, hinv, fun _ => rfl⟩
  | cons nd t =>
    rw [wfF_cons, Bool.and_eq_true] at hwf
    have ihn := conv_goodN st nd hwf.1 hinv
    rcases h1 : convertNode st nd with ⟨st1, nd'⟩
    rw [h1] at ihn
    dsimp only at ihn
    have iht := conv_goodF st1 t hwf.2 ihn.2.1
    rcases h2 : convertForest st1 t with ⟨st2, t'⟩
    rw [h2] at iht
    dsimp only at iht
    rw [convertForest_cons, h1]
    dsimp only
    rw [h2]
    dsimp only
    refine ⟨?_, iht.2.1, ?_⟩
    · rw [goodF_cons]
      simp [ihn.1, iht.1]
    · intro hall
      simp only [forestAll, Bool.and_eq_true] at hall ⊢
      refine ⟨?_, iht.2.2 hall.2⟩
      have hko : itemOk nd' = itemOk nd := by
        simp only [itemOk, ihn.2.2.1]
        congr 1
        exact decide_eq_decide.mpr (not_congr ihn.2.2.2)
      rw [hko]
      exact hall.1
termination_by (gsizeF f, 0)
decreasing_by all_goals (subst_vars; simp only [gsizeN, gsizeF]; omega)
end

theorem conv_ruleList (rules : List GNode) : ∀ st : ConvSt,
    rules.all wfN = true → st.newRules.all goodN = true →
    (convertRuleList st rules).2.all goodN = true ∧
      (convertRuleList st rules).1.newRules.all goodN = true := by
  induction rules with
  | nil =>
    intro st _ hinv
    simp [convertRuleList, hinv]
  | cons r rs ih =>
    intro st hwf hinv
    simp only [List.all_cons, Bool.and_eq_true] at hwf
    have ihn := conv_goodN st r hwf.1 hinv
    rcases h1 : convertNode st r with ⟨st1, r'⟩
    rw [h1] at ihn
    dsimp only at ihn
    have iht := ih st1 hwf.2 ihn.2.1
    rcases h2 : convertRuleList st1 rs with ⟨st2, rs'⟩
    rw [h2] at iht
    dsimp only at iht
    simp only [convertRuleList, h1, h2]
    exact ⟨by simp [ihn.1, iht.1], iht.2⟩

/-- Claim C1 (amended): after `convertGrammarRules` completes on
well-formed rule trees, no `GroupAtom` anywhere — in the rewritten rules or
in the appended synthetic `_group_N` rules — retains a `Choice` child or a
child carrying an action: every group with more than one choice or an
action on its sole choice has been replaced by a `NameAtom` referring to a
synthetic rule, and every group whose sole choice has no action has had
the choice layer removed, its items becoming the group node's own children
(the `GroupAtom` node itself survives inside the parent's child list
rather than being replaced by the items). -/
theorem convertGrammarRules_no_bad_groups (rules : List GNode)
    (hwf : rules.all wfN = true) :
    (convertGrammarRules rules).all goodN = true := by
  have h := conv_ruleList rules ⟨[], []⟩ hwf (by simp)
  rcases hr : convertRuleList ⟨[], []⟩ rules with ⟨st, rules'⟩
  rw [hr] at h
  dsimp only at h
  simp only [convertGrammarRules, hr, List.all_append]
  simp [h.1, h.2]

/-- Witness for C1 at the concrete rule `r: | ('a' 'b')`. -/
theorem convertGrammarRules_no_bad_groups_witness :
    ([cexGroupTree].all wfN = true) ∧
      (convertGrammarRules [cexGroupTree]).all goodN = true :=
  ⟨by decide, convertGrammarRules_no_bad_groups [cexGroupTree] (by decide)⟩

/-! ### Operator trie (claim C8) -/

theorem alookup_aset_self {β : Type} (l : List (Nat × β)) (k : Nat) (v : β) :
    alookup (aset l k v) k = some v := by
  induction l with
  | nil => simp [aset, alookup]
  | cons p rest ih =>
    obtain ⟨pk, pv⟩ := p
    by_cases hk : pk = k
    · simp [aset, hk, alookup]
    · simp [aset, hk, alookup, ih]

theorem alookup_aset_ne {β : Type} (l : List (Nat × β)) (k k' : Nat) (v : β)
    (h : k' ≠ k) : alookup (aset l k v) k' = alookup l k' := by
  induction l with
  | nil => simp [aset, alookup, Ne.symm h]
  | cons p rest ih =>
    obtain ⟨pk, pv⟩ := p
    by_cases hk : pk = k
    · subst hk
      simp [aset, alookup, Ne.symm h]
    · simp [aset, hk, alookup, ih]

theorem alookup_append_self {β : Type} (l : List (Nat × β)) (k : Nat) (v : β)
    (h : alookup l k = none) : alookup (l ++ [(k, v)]) k = some v := by
  induction l with
  | nil => simp [alookup]
  | cons p rest ih =>
    obtain ⟨pk, pv⟩ := p
    by_cases hk : pk = k
    · simp [alookup, hk] at h
    · simp only [alookup, hk, if_false] at h
      simp [alookup, hk, ih h]

theorem alookup_append_ne {β : Type} (l : List (Nat × β)) (k k' : Nat) (v : β)
    (h : k' ≠ k) : alookup (l ++ [(k, v)]) k' = alookup l k' := by
  induction l with
  | nil => simp [alookup, Ne.symm h]
  | cons p rest ih =>
    obtain ⟨pk, pv⟩ := p
    simp [alookup, ih]

theorem trieMatch_nil (t : OperatorNode) : trieMatch t [] = none := by
  cases t
  rfl

theorem trieMatch_cons (c : Nat) (n : String) (l : Nat)
    (cs : List (Nat × OperatorNode)) (b : Nat) (rest : List Nat) :
    trieMatch (.mk c n l cs) (b :: rest) =
      (match alookup cs b with
       | none => none
       | some ch =>
         match trieMatch ch rest with
         | some p => some (p.1, p.2 + 1)
         | none => if ch.opName ≠ "" then some (ch.opName, 1) else none) := by
  rw [trieMatch.eq_def]
  rcases hal : alookup cs b with _ | ch
  · simp [OperatorNode.children, hal]
  · simp only [OperatorNode.children, hal]
    rcases hm : trieMatch ch rest with _ | ⟨pn, pk⟩ <;> simp

theorem trieMatch_mk (c1 c2 : Nat) (n1 n2 : String) (l1 l2 : Nat)
    (cs : List (Nat × OperatorNode)) (input : List Nat) :
    trieMatch (.mk c1 n1 l1 cs) input = trieMatch (.mk c2 n2 l2 cs) input := by
  cases input with
  | nil => rw [trieMatch_nil, trieMatch_nil]
  | cons b rest => rw [trieMatch_cons, trieMatch_cons]

theorem trieMatch_leaf (c : Nat) (n : String) (l : Nat) (input : List Nat) :
    trieMatch (.mk c n l []) input = none := by
  cases input with
  | nil => rw [trieMatch_nil]
  | cons b rest =>
    rw [trieMatch_cons]
    simp [alookup]

theorem Update_nil (c : Nat) (n : String) (l : Nat)
    (cs : List (Nat × OperatorNode)) (nm : String) :
    (OperatorNode.mk c n l cs).Update nm [] = .mk c nm l cs := rfl

theorem Update_cons (c : Nat) (n : String) (l : Nat)
    (cs : List (Nat × OperatorNode)) (nm : String) (b : Nat) (bs : List Nat) :
    (OperatorNode.mk c n l cs).Update nm (b :: bs) =
      (match alookup cs b with
       | some sub => .mk c n l (aset cs b (sub.Update nm bs))
       | none =>
         .mk c n l (cs ++ [(b, (OperatorNode.mk b "" (l + 1) []).Update nm bs)])) := by
  rfl

theorem Update_opName_cons (c : Nat) (n : String) (l : Nat)
    (cs : List (Nat × OperatorNode)) (nm : String) (b : Nat) (bs : List Nat) :
    ((OperatorNode.mk c n l cs).Update nm (b :: bs)).opName = n := by
  rw [Update_cons]
  rcases hal : alookup cs b with _ | sub <;> simp [OperatorNode.opName]

theorem trieMatch_pos (t : OperatorNode) (input : List Nat) (nm : String) (k : Nat)
    (h : trieMatch t input = some (nm, k)) : 1 ≤ k := by
  cases input with
  | nil =>
    rw [trieMatch_nil] at h
    exact absurd h (by simp)
  | cons b rest =>
    cases t with
    | mk c n l cs =>
      rw [trieMatch_cons] at h
      rcases hal : alookup cs b with _ | ch
      · simp only [hal] at h
        exact absurd h (by simp)
      · simp only [hal] at h
        rcases hm : trieMatch ch rest with _ | ⟨pn, pk⟩
        · simp only [hm] at h
          by_cases hop : ch.opName = ""
          · simp [hop] at h
          · simp [hop] at h
            omega
        · simp only [hm] at h
          simp at h
          omega

/-- Behaviour of `trieMatch` after one `Update`: the new operator wins
exactly when its bytes prefix the input and the previous match is no
longer (overwriting an equally long previous match, as the Go map
assignment does); otherwise the old match stands. -/
theorem trieMatch_update (bs : List Nat) (t : OperatorNode) (nm : String)
    (input : List Nat) (hnm : nm ≠ "") :
    trieMatch (t.Update nm bs) input =
      (if updCond bs input (trieMatch t input) then some (nm, bs.length)
       else trieMatch t input) := by
  induction bs generalizing t input with
  | nil =>
    cases t with
    | mk c n l cs =>
      rw [Update_nil]
      simp only [updCond, List.isEmpty_nil, Bool.not_true, Bool.false_and,
        Bool.false_eq_true, if_false]
      exact trieMatch_mk c c nm n l l cs input
  | cons b rest ih =>
    cases t with
    | mk c n l cs =>
      cases input with
      | nil =>
        rw [trieMatch_nil ((OperatorNode.mk c n l cs).Update nm (b :: rest)),
          trieMatch_nil]
        simp [updCond, isPre]
      | cons i irest =>
        by_cases hib : i = b
        · subst hib
          rcases hal : alookup cs i with _ | sub
          · rw [Update_cons]
            simp only [hal]
            rw [trieMatch_cons]
            simp only [alookup_append_self cs i _ hal]
            have hold : trieMatch (OperatorNode.mk c n l cs) (i :: irest) = none := by
              rw [trieMatch_cons, hal]
            rw [hold]
            cases rest with
            | nil =>
              simp only [Update_nil, trieMatch_leaf]
              simp [OperatorNode.opName, hnm, updCond, isPre]
            | cons r rs =>
              have hnew := ih (OperatorNode.mk i "" (l + 1) []) irest
              rw [trieMatch_leaf] at hnew
              rw [hnew]
              by_cases hpre : isPre (r :: rs) irest = true
              · simp [updCond, isPre, hpre]
              · simp only [Bool.not_eq_true] at hpre
                simp [updCond, isPre, hpre, Update_opName_cons]
          · rw [Update_cons]
            simp only [hal]
            rw [trieMatch_cons]
            simp only [alookup_aset_self]
            have hold : trieMatch (OperatorNode.mk c n l cs) (i :: irest) =
                (match trieMatch sub irest with
                 | some p => some (p.1, p.2 + 1)
                 | none => if sub.opName ≠ "" then some (sub.opName, 1) else none) := by
              rw [trieMatch_cons, hal]
            rw [hold]
            cases rest with
            | nil =>
              cases sub with
              | mk sc sn sl scs =>
                simp only [Update_nil]
                rw [trieMatch_mk sc sc nm sn sl sl scs irest]
                rcases hsm : trieMatch (OperatorNode.mk sc sn sl scs) irest
                  with _ | ⟨pn, pk⟩
                · by_cases hsn : sn = "" <;>
                    simp [hsm, OperatorNode.opName, hnm, hsn, updCond, isPre]
                · have hp1 : 1 ≤ pk := trieMatch_pos _ _ pn pk hsm
                  have hc : updCond [i] (i :: irest) (some (pn, pk + 1)) = false := by
                    simp [updCond, isPre]
                    omega
                  simp [hsm, OperatorNode.opName, hc]
            | cons r rs =>
              cases sub with
              | mk sc sn sl scs =>
                have hsub := ih (OperatorNode.mk sc sn sl scs) irest
                rw [hsub, Update_opName_cons]
                by_cases hpre : isPre (r :: rs) irest = true
                · rcases hsm : trieMatch (OperatorNode.mk sc sn sl scs) irest
                    with _ | ⟨pn, pk⟩
                  · have hcu : updCond (r :: rs) irest none = true := by
                      simp [updCond, hpre]
                    rw [hcu]
                    by_cases hsn : sn = ""
                    · simp [OperatorNode.opName, hsn, updCond, isPre, hpre]
                    · have hco : updCond (i :: r :: rs) (i :: irest)
                          (some (sn, 1)) = true := by
                        simp [updCond, isPre, hpre] <;> omega
                      simp [OperatorNode.opName, hsn, hco]
                  · have hp1 : 1 ≤ pk := trieMatch_pos _ _ pn pk hsm
                    by_cases hk : pk ≤ rs.length + 1
                    · have hcu : updCond (r :: rs) irest (some (pn, pk)) = true := by
                        simp [updCond, hpre] <;> omega
                      rw [hcu]
                      have hco : updCond (i :: r :: rs) (i :: irest)
                          (some (pn, pk + 1)) = true := by
                        simp [updCond, isPre, hpre] <;> omega
                      simp [hco]
                    · have hcu : updCond (r :: rs) irest (some (pn, pk)) = false := by
                        simp [updCond, hpre] <;> omega
                      rw [hcu]
                      have hco : updCond (i :: r :: rs) (i :: irest)
                          (some (pn, pk + 1)) = false := by
                        simp [updCond, isPre, hpre] <;> omega
                      simp [hco]
                · simp only [Bool.not_eq_true] at hpre
                  have hcu : updCond (r :: rs) irest
                      (trieMatch (OperatorNode.mk sc sn sl scs) irest) = false := by
                    simp [updCond, hpre]
                  rw [hcu]
                  have hco : updCond (i :: r :: rs) (i :: irest)
                      (match trieMatch (OperatorNode.mk sc sn sl scs) irest with
                       | some p => some (p.1, p.2 + 1)
                       | none => if (OperatorNode.mk sc sn sl scs).opName ≠ ""
                                 then some ((OperatorNode.mk sc sn sl scs).opName, 1)
                                 else none) = false := by
                    simp [updCond, isPre, hpre]
                  rw [hco]
                  simp [OperatorNode.opName]
        · have hbi : ¬(b = i) := fun hc => hib hc.symm
          rcases hal : alookup cs b with _ | sub
          · rw [Update_cons]
            simp only [hal]
            rw [trieMatch_cons, alookup_append_ne cs b i _ hib,
              ← trieMatch_cons c n l cs i irest]
            have hco : updCond (b :: rest) (i :: irest)
                (trieMatch (OperatorNode.mk c n l cs) (i :: irest)) = false := by
              simp [updCond, isPre, hbi]
            rw [hco]
            simp
          · rw [Update_cons]
            simp only [hal]
            rw [trieMatch_cons, alookup_aset_ne cs b i _ hib,
              ← trieMatch_cons c n l cs i irest]
            have hco : updCond (b :: rest) (i :: irest)
                (trieMatch (OperatorNode.mk c n l cs) (i :: irest)) = false := by
              simp [updCond, isPre, hbi]
            rw [hco]
            simp

theorem trieMatch_fold (ops : List (String × List Nat)) (input : List Nat) :
    ∀ t : OperatorNode, (∀ p ∈ ops, p.1 ≠ "") →
    trieMatch (ops.foldl (fun t p => t.Update p.1 p.2) t) input =
      ops.foldl
        (fun best p => if updCond p.2 input best then some (p.1, p.2.length) else best)
        (trieMatch t input) := by
  induction ops with
  | nil =>
    intro t _
    rfl
  | cons q rest ih =>
    intro t hne
    simp only [List.foldl_cons]
    rw [ih (t.Update q.1 q.2) (fun p hp => hne p (List.mem_cons_of_mem _ hp)),
      trieMatch_update q.2 t q.1 input (hne q (List.mem_cons_self _ _))]

/-- Claim C8: the operator trie built by folding `OperatorNode.Update`
recognises, at every input position, exactly the longest declared operator
that matches there — with `<`, `<<` and `<<=` declared, `<<=`-input
consumes three bytes as one token, `<<`-then-other consumes two, bare `<`
one (declaration order only breaks exact-duplicate ties in favour of the
later declaration, as the Go map write does). -/
theorem trieMatch_longest (ops : List (String × List Nat)) (input : List Nat)
    (hne : ∀ p ∈ ops, p.1 ≠ "") :
    trieMatch (buildOpTree ops) input = longestOpMatch ops input := by
  have h := trieMatch_fold ops input (.mk 0 "" 0 []) hne
  rw [trieMatch_leaf] at h
  simpa [buildOpTree, longestOpMatch] using h

/-- Witness for C8: the `<` / `<<` / `<<=` trie (bytes 60, 60 60,
60 60 61) commits to the longest operator present at the front of the
input. -/
theorem trieMatch_longest_witness :
    trieMatch (buildOpTree [("less", [60]), ("less_less", [60, 60]),
        ("less_less_equal", [60, 60, 61])]) [60, 60, 61] =
      some ("less_less_equal", 3) ∧
      trieMatch (buildOpTree [("less", [60]), ("less_less", [60, 60]),
          ("less_less_equal", [60, 60, 61])]) [60, 60, 97] =
        some ("less_less", 2) ∧
      trieMatch (buildOpTree [("less", [60]), ("less_less", [60, 60]),
          ("less_less_equal", [60, 60, 61])]) [60, 97] =
        some ("less", 1) :=
  ⟨(trieMatch_longest [("less", [60]), ("less_less", [60, 60]),
      ("less_less_equal", [60, 60, 61])] [60, 60, 61] (by decide)).trans (by decide),
   (trieMatch_longest [("less", [60]), ("less_less", [60, 60]),
      ("less_less_equal", [60, 60, 61])] [60, 60, 97] (by decide)).trans (by decide),
   (trieMatch_longest [("less", [60]), ("less_less", [60, 60]),
      ("less_less_equal", [60, 60, 61])] [60, 97] (by decide)).trans (by decide)⟩

/-- Counterexample for C1 as stated: on `r: | ('a' 'b')` the rewrite keeps
the `GroupAtom` node (now holding the two items `'a'` and `'b'` as its own
children) inside the `AtomItem`'s child list — the items do not replace
the group in the parent's child list, a `GroupAtom` with two children
remains in the tree. -/
theorem convert_flatten_keeps_group :
    convertGrammarRules [cexGroupTree] = [cexGroupFlattened] ∧
      hasGroupN cexGroupFlattened = true ∧
      hasBigGroupN cexGroupFlattened = true := by
  refine ⟨?_, by decide, by decide⟩
  simp [convertGrammarRules, convertRuleList, convertNode, convertForest,
    cexGroupTree, cexGroupFlattened, GNode.kind, GNode.children, GNode.separator,
    GNode.name, GNode.snippet, GNode.suffix, GNode.ruleMemo, GNode.action, slookup]

end Pgen
